import Mathlib

/-!
# A shallow embedding of the bbcode lexer (`lexer.go`)

Strings and byte slices are lists of byte values (`Nat`, each below 256 in any
real input).  A run-time failure of the Go code (an index out of range) is the
result `none`.  The token kinds declared by the generated grammar are the
constructors of `Token`; `Token.eof` is the integer `0` and `Token.char c` is
`int(c)`.
-/

namespace bbcode

/-- The Go type `lexerState` with its four constants. -/
inductive lexerState where
  | INIT_STATE
  | TAG_START_STATE
  | TAG_ARGS_STATE
  | ARG_VALUE_STATE
  deriving DecidableEq, Repr

open lexerState

/-- The integer that `Lex` returns: `0`, a byte value `int(c)`, or one of the
token constants of the generated grammar. -/
inductive Token where
  | eof
  | char (c : Nat)
  | TEXT
  | ID
  | NEWLINE
  | CLOSING_TAG_OPENING
  | MISSING_CLOSING
  | MISSING_OPENING
  deriving DecidableEq, Repr

/-- The value carrier `yySymType`; `Lex` only ever writes its field `str`. -/
structure yySymType where
  str : List Nat
  deriving DecidableEq, Repr

/-- The Go struct `lexer`.  The fields `buffer` (never used) and `err` (written
only by `Error`) play no part in `Lex` and are left out.  The counter
`tagsOpened` is a Go `int`: its values lie between `minInt` and `maxInt`, and
the increment in `Lex` wraps around (`wrapInt`). -/
structure lexer where
  str : List Nat
  state : lexerState
  tagsOpened : Int
  deriving DecidableEq, Repr

/-- The largest value of the Go type `int`, taken as 64 bits wide. -/
def maxInt : Int := 9223372036854775807

/-- The smallest value of the Go type `int`, taken as 64 bits wide. -/
def minInt : Int := -9223372036854775808

/-- The result of an arithmetic operation on the Go type `int`: the exact
result reduced to the range from `minInt` to `maxInt` (two's complement). -/
def wrapInt (x : Int) : Int :=
  (x + 9223372036854775808) % 18446744073709551616 - 9223372036854775808

/-- The registry `tags`: "url", "img", "b", "i", "u", "s", "quote", "code". -/
def tags : List (List Nat) :=
  [[117, 114, 108], [105, 109, 103], [98], [105], [117], [115],
   [113, 117, 111, 116, 101], [99, 111, 100, 101]]

/-- The Go function `newLexer`: zero values for `state` and `tagsOpened`. -/
def newLexer (str : List Nat) : lexer :=
  { str := str, state := INIT_STATE, tagsOpened := 0 }

/-- The test `unicode.IsSpace(rune(c))` for a byte `c`: in the Latin-1 range
the white space runes are tab, line feed, vertical tab, form feed, carriage
return, space, U+0085 and U+00A0. -/
def isSpace (c : Nat) : Bool :=
  c == 9 || c == 10 || c == 11 || c == 12 || c == 13 || c == 32 || c == 133 || c == 160

/-- The loop `for unicode.IsSpace(rune(c)) { l.str = l.str[1:]; c = l.str[0] }`,
entered with a non-empty buffer.  The result is the byte `c` that ends the loop
and the buffer after it (`l.str[1:]`); `none` is the index failure of
`l.str[0]` when the buffer runs out. -/
def skipSpace : List Nat → Option (Nat × List Nat)
  | [] => none
  | c :: rest => if isSpace c then skipSpace rest else some (c, rest)

/-- One literal `c` (a lower-case ASCII letter) of a `(?i)` pattern, matched at
the head of `s`; the result is the input after the matched rune.  Go folds with
`unicode.SimpleFold`, whose orbit of `s` also holds U+017F (bytes C5 BF) and
whose orbit of `k` also holds U+212A (bytes E2 84 AA). -/
def foldLit (c : Nat) (s : List Nat) : Option (List Nat) :=
  match s with
  | [] => none
  | b :: rest =>
    if b = c ∨ b + 32 = c then some rest
    else if c = 115 then
      (match b, rest with
       | 197, 191 :: r => some r
       | _, _ => none)
    else if c = 107 then
      (match b, rest with
       | 226, 132 :: 170 :: r => some r
       | _, _ => none)
    else none

/-- The literal letters of a tag name under `(?i)`, matched one after another. -/
def foldLits : List Nat → List Nat → Option (List Nat)
  | [], s => some s
  | c :: cs, s =>
    match foldLit c s with
    | some r => foldLits cs r
    | none => none

/-- The class `[\]= \t]` that ends a tag pattern. -/
def isTagDelim (c : Nat) : Bool :=
  c == 93 || c == 61 || c == 32 || c == 9

/-- The greedy `[ \t]*` of a tag pattern. -/
def skipBlanks : List Nat → List Nat
  | [] => []
  | c :: rest => if c = 32 ∨ c = 9 then skipBlanks rest else c :: rest

/-- The call `r.Match(s)` for the pattern built in `init` from `tag`:
`(?i)^\[/?[ \t]*` followed by the tag name and `[\]= \t]`.  The three leading
pieces accept disjoint sets of bytes, so the greedy choice is the only one. -/
def tagRegexpMatch (tag : List Nat) (s : List Nat) : Bool :=
  match s with
  | 91 :: r =>
    let r1 := (match r with
      | 47 :: r2 => r2
      | _ => r)
    match foldLits tag (skipBlanks r1) with
    | some (d :: _) => isTagDelim d
    | _ => false
  | _ => false

/-- The loop over `tagRegexps` in the Init branch: does any pattern match? -/
def anyTagMatch (s : List Nat) : Bool :=
  tags.any (fun tag => tagRegexpMatch tag s)

/-- One rune at the head of `s` whose `unicode.ToLower` is the ASCII lower-case
letter `c`; the result is the input after that rune.  Besides the letter and
its upper-case form, U+0130 (bytes C4 B0) lowers to `i` and U+212A (bytes
E2 84 AA) lowers to `k`; no other rune lowers to an ASCII letter. -/
def lowerLit (c : Nat) (s : List Nat) : Option (List Nat) :=
  match s with
  | [] => none
  | b :: rest =>
    if b = c ∨ b + 32 = c then some rest
    else if c = 105 then
      (match b, rest with
       | 196, 176 :: r => some r
       | _, _ => none)
    else if c = 107 then
      (match b, rest with
       | 226, 132 :: 170 :: r => some r
       | _, _ => none)
    else none

/-- The test `strings.HasPrefix(strings.ToLower(string(l.str)), tag)` for an
ASCII lower-case `tag`.  `strings.ToLower` lowers rune by rune (byte by byte on
pure ASCII input) and every non-ASCII result is written with lead byte 0xC2 or
above, so the lowered string starts with `tag` exactly when the first runes of
the input lower to the letters of `tag`. -/
def lowerStartsWith : List Nat → List Nat → Bool
  | [], _ => true
  | c :: cs, s =>
    match lowerLit c s with
    | some r => lowerStartsWith cs r
    | none => false

/-- The class `[A-Za-z0-9_]` of `idRegexp`. -/
def isIdByte (c : Nat) : Bool :=
  (65 ≤ c && c ≤ 90) || (97 ≤ c && c ≤ 122) || (48 ≤ c && c ≤ 57) || c == 95

/-- The call `idRegexp.Find` for the pattern `^[A-Za-z0-9_]+`: the longest run
of identifier bytes at the head of the buffer (empty when there is no match). -/
def idRun : List Nat → List Nat
  | [] => []
  | c :: rest => if isIdByte c then c :: idRun rest else []

/-- The lazy `.+?` of `textRegexp` once its first rune is taken: the bytes up to
the first space or `]`; a line feed before that makes the match fail, because
`.` does not match it. -/
def lazyRun : List Nat → Option (List Nat)
  | [] => none
  | b :: bs =>
    if b = 32 ∨ b = 93 then some []
    else if b = 10 then none
    else (lazyRun bs).map (fun t => b :: t)

/-- The group `matches[1]` of `textRegexp.FindSubmatch` for the pattern
`^(.+?)[ \]]`, or `none` when there is no match.  A space, a `]` and a line
feed are single bytes that never occur inside a longer rune, so the bytewise
reading agrees with the runewise one. -/
def textRegexpFind : List Nat → Option (List Nat)
  | [] => none
  | c :: rest => if c = 10 then none else (lazyRun rest).map (fun t => c :: t)

/-- The number of bytes before the first `[` or line feed: the loop
`for offset < len(l.str)` of the Init branch advances over exactly these,
starting one byte in. -/
def runLength : List Nat → Nat
  | [] => 0
  | c :: rest => if c = 91 ∨ c = 10 then 0 else runLength rest + 1

/-- The method `Lex`.  The result is the returned token, the lexer after the
call and the value carrier after the call; `none` is a run-time failure.  The
increment `l.tagsOpened++` wraps around at `maxInt`; both decrements
`l.tagsOpened--` are made only when `tagsOpened > 0`, where the exact result is
in range. -/
def Lex (l : lexer) (lval : yySymType) : Option (Token × lexer × yySymType) :=
  match l.str with
  | [] =>
    if l.tagsOpened > 0 then
      some (Token.MISSING_CLOSING, { l with tagsOpened := l.tagsOpened - 1 }, lval)
    else
      some (Token.eof, l, lval)
  | c :: rest =>
    match l.state with
    | TAG_START_STATE =>
      match tags.find? (fun tag => lowerStartsWith tag (c :: rest)) with
      | some tag =>
        some (Token.ID,
              { l with str := (c :: rest).drop tag.length, state := TAG_ARGS_STATE },
              { lval with str := tag })
      | none => some (Token.TEXT, l, lval)
    | TAG_ARGS_STATE =>
      match skipSpace (c :: rest) with
      | none => none
      | some (c1, rest1) =>
        if c1 = 93 then
          some (Token.char c1, { l with str := rest1, state := INIT_STATE }, lval)
        else if c1 = 61 then
          some (Token.char c1, { l with str := rest1, state := ARG_VALUE_STATE }, lval)
        else
          match idRun (c1 :: rest1) with
          | [] => some (Token.TEXT, { l with str := c1 :: rest1 }, lval)
          | m :: ms =>
            some (Token.ID, { l with str := (c1 :: rest1).drop (m :: ms).length },
                  { lval with str := m :: ms })
    | ARG_VALUE_STATE =>
      match skipSpace (c :: rest) with
      | none => none
      | some (c1, rest1) =>
        if c1 = 34 ∨ c1 = 39 then
          some (Token.eof, { l with str := c1 :: rest1 }, lval)
        else
          match textRegexpFind (c1 :: rest1) with
          | some (m :: ms) =>
            some (Token.TEXT,
                  { l with str := (c1 :: rest1).drop (m :: ms).length, state := TAG_ARGS_STATE },
                  { lval with str := m :: ms })
          | _ => some (Token.TEXT, { l with str := c1 :: rest1 }, lval)
    | INIT_STATE =>
      if c = 10 then
        some (Token.NEWLINE, { l with str := rest }, lval)
      else if c = 91 ∧ anyTagMatch (c :: rest) = true then
        match rest with
        | [] => none
        | c1 :: rest1 =>
          if c1 = 47 then
            if l.tagsOpened ≤ 0 then
              some (Token.MISSING_OPENING, { l with str := rest1, state := TAG_START_STATE }, lval)
            else
              some (Token.CLOSING_TAG_OPENING,
                    { l with str := rest1, state := TAG_START_STATE,
                             tagsOpened := l.tagsOpened - 1 }, lval)
          else
            some (Token.char c,
                  { l with str := c1 :: rest1, state := TAG_START_STATE,
                           tagsOpened := wrapInt (l.tagsOpened + 1) }, lval)
      else
        let offset := 1 + runLength rest
        some (Token.TEXT, { l with str := (c :: rest).drop offset },
              { lval with str := (c :: rest).take offset })

/-- What a caller observes of one call: the token, the payload slot `lval.str`
after the call and `tagsOpened` after the call. -/
structure Event where
  tok : Token
  val : List Nat
  depth : Int
  deriving DecidableEq, Repr

/-- The method `Lex` called `n` times in a row: the observed events in order,
and the lexer and the value carrier after the last call; `none` when one of
the calls fails. -/
def lexN : Nat → lexer → yySymType → Option (List Event × lexer × yySymType)
  | 0, l, lval => some ([], l, lval)
  | n + 1, l, lval =>
    match Lex l lval with
    | none => none
    | some (t, l1, lval1) =>
      match lexN n l1 lval1 with
      | none => none
      | some (es, l2, lval2) => some (⟨t, lval1.str, l1.tagsOpened⟩ :: es, l2, lval2)

/-- The change of `tagsOpened` that goes with a returned token. -/
def depthDelta : Token → Int
  | Token.char 91 => 1
  | Token.CLOSING_TAG_OPENING => -1
  | Token.MISSING_CLOSING => -1
  | _ => 0

/-- An ASCII letter-case variant: `a` is the lower-case letter `c` or its
upper-case form. -/
def isCaseOf (a c : Nat) : Prop := a = c ∨ a + 32 = c

/-- The byte string `T1` is `T` with each letter in either case. -/
def caseVariant (T1 T : List Nat) : Prop := List.Forall₂ isCaseOf T1 T

/-! ## Single calls -/

theorem foldLits_variant {T1 T : List Nat} (h : caseVariant T1 T) (r : List Nat) :
    foldLits T (T1 ++ r) = some r := by
  induction h with
  | nil => simp [foldLits]
  | cons hab _ ih =>
    have hab2 := hab
    simp only [isCaseOf] at hab2
    simp [foldLits, foldLit, hab2, ih]

theorem lowerStartsWith_variant {T1 T : List Nat} (h : caseVariant T1 T) (r : List Nat) :
    lowerStartsWith T (T1 ++ r) = true := by
  induction h with
  | nil => simp [lowerStartsWith]
  | cons hab _ ih =>
    have hab2 := hab
    simp only [isCaseOf] at hab2
    simp [lowerStartsWith, lowerLit, hab2, ih]

theorem caseVariant_refl (T : List Nat) : caseVariant T T := by
  induction T with
  | nil => exact List.Forall₂.nil
  | cons a T ih => exact List.Forall₂.cons (Or.inl rfl) ih

theorem caseVariant_length {T1 T : List Nat} (h : caseVariant T1 T) : T1.length = T.length :=
  List.Forall₂.length_eq h

theorem isTagDelim_cases {d : Nat} (hd : isTagDelim d = true) :
    d = 93 ∨ d = 61 ∨ d = 32 ∨ d = 9 := by
  simp only [isTagDelim, Bool.or_eq_true, beq_iff_eq] at hd
  omega

/-- A case variant of a registered tag name starts with a letter. -/
theorem variant_head {T1 T : List Nat} (hT : T ∈ tags) (h : caseVariant T1 T) :
    ∃ a T2, T1 = a :: T2 ∧ 65 ≤ a := by
  simp only [tags, List.mem_cons, List.mem_singleton, List.not_mem_nil, or_false] at hT
  rcases hT with rfl | rfl | rfl | rfl | rfl | rfl | rfl | rfl <;>
    (obtain ⟨a, T2, ha, -, rfl⟩ := List.forall₂_cons_right_iff.mp h
     refine ⟨a, T2, rfl, ?_⟩
     simp only [isCaseOf] at ha
     omega)

theorem tagRegexpMatch_open (T s : List Nat) (a : Nat) (ha : 65 ≤ a) :
    tagRegexpMatch T (91 :: a :: s) =
      (match foldLits T (a :: s) with
       | some (d :: _) => isTagDelim d
       | _ => false) := by
  have h1 : a ≠ 47 := by omega
  have h2 : a ≠ 32 := by omega
  have h3 : a ≠ 9 := by omega
  simp [tagRegexpMatch, skipBlanks, h1, h2, h3]

theorem tagRegexpMatch_close (T s : List Nat) (a : Nat) (ha : 65 ≤ a) :
    tagRegexpMatch T (91 :: 47 :: a :: s) =
      (match foldLits T (a :: s) with
       | some (d :: _) => isTagDelim d
       | _ => false) := by
  have h2 : a ≠ 32 := by omega
  have h3 : a ≠ 9 := by omega
  simp [tagRegexpMatch, skipBlanks, h2, h3]

theorem anyTagMatch_open {T1 T : List Nat} (hT : T ∈ tags) (h : caseVariant T1 T)
    {d : Nat} (hd : isTagDelim d = true) (r : List Nat) :
    anyTagMatch (91 :: (T1 ++ d :: r)) = true := by
  obtain ⟨a, T2, rfl, ha⟩ := variant_head hT h
  have hf := foldLits_variant h (d :: r)
  simp only [anyTagMatch, List.any_eq_true]
  refine ⟨T, hT, ?_⟩
  rw [List.cons_append] at hf ⊢
  rw [tagRegexpMatch_open T _ a ha, hf]
  exact hd

theorem anyTagMatch_close {T1 T : List Nat} (hT : T ∈ tags) (h : caseVariant T1 T)
    {d : Nat} (hd : isTagDelim d = true) (r : List Nat) :
    anyTagMatch (91 :: 47 :: (T1 ++ d :: r)) = true := by
  obtain ⟨a, T2, rfl, ha⟩ := variant_head hT h
  have hf := foldLits_variant h (d :: r)
  simp only [anyTagMatch, List.any_eq_true]
  refine ⟨T, hT, ?_⟩
  rw [List.cons_append] at hf ⊢
  rw [tagRegexpMatch_close T _ a ha, hf]
  exact hd

/-- In tag-name position the registry search names the tag that was written,
never an earlier registry entry. -/
theorem find_tag {T1 T : List Nat} (hT : T ∈ tags) (h : caseVariant T1 T)
    {d : Nat} (hd : isTagDelim d = true) (r : List Nat) :
    tags.find? (fun tag => lowerStartsWith tag (T1 ++ d :: r)) = some T := by
  have hself := lowerStartsWith_variant h (d :: r)
  have hd2 := isTagDelim_cases hd
  simp only [tags, List.mem_cons, List.mem_singleton, List.not_mem_nil, or_false] at hT
  rcases hT with rfl | rfl | rfl | rfl | rfl | rfl | rfl | rfl <;>
    (obtain ⟨a, T2, ha, htl, rfl⟩ := List.forall₂_cons_right_iff.mp h
     try simp only [List.forall₂_nil_right_iff] at htl
     try subst htl
     simp only [isCaseOf] at ha
     simp only [tags, List.find?_cons]
     first
       | (rw [hself]; done)
       | (try rw [hself]
          rcases ha with rfl | ha
          · rcases hd2 with rfl | rfl | rfl | rfl <;> simp [lowerStartsWith, lowerLit]
          · obtain rfl : a = _ := Nat.eq_sub_of_add_eq ha
            rcases hd2 with rfl | rfl | rfl | rfl <;> simp [lowerStartsWith, lowerLit]))

theorem runLength_append {t : List Nat} (ht : ∀ b ∈ t, b ≠ 91 ∧ b ≠ 10) (r : List Nat) :
    runLength (t ++ r) = t.length + runLength r := by
  induction t with
  | nil => simp
  | cons b t ih =>
    have hb := ht b (List.mem_cons_self b t)
    have ih2 := ih (fun x hx => ht x (List.mem_cons_of_mem b hx))
    simp [runLength, hb.1, hb.2, ih2]
    omega

theorem lazyRun_append {t : List Nat} (ht : ∀ b ∈ t, b ≠ 32 ∧ b ≠ 93 ∧ b ≠ 10)
    {d : Nat} (hd : d = 32 ∨ d = 93) (r : List Nat) :
    lazyRun (t ++ d :: r) = some t := by
  induction t with
  | nil => simp [lazyRun, hd]
  | cons b t ih =>
    have hb := ht b (List.mem_cons_self b t)
    have ih2 := ih (fun x hx => ht x (List.mem_cons_of_mem b hx))
    simp [lazyRun, hb.1, hb.2.1, hb.2.2, ih2]

theorem isSpace_false_ne {b : Nat} (h : isSpace b = false) : b ≠ 32 ∧ b ≠ 10 := by
  constructor <;> (rintro rfl; simp [isSpace] at h)

theorem wrapInt_succ {k : Int} (hlo : minInt ≤ k) (hhi : k < maxInt) :
    wrapInt (k + 1) = k + 1 := by
  unfold wrapInt
  unfold minInt at hlo
  unfold maxInt at hhi
  omega

theorem Lex_open {T1 T : List Nat} (hT : T ∈ tags) (h : caseVariant T1 T)
    {d : Nat} (hd : isTagDelim d = true) (r : List Nat) (k : Int) (v : yySymType) :
    Lex ⟨91 :: (T1 ++ d :: r), INIT_STATE, k⟩ v =
      some (Token.char 91, ⟨T1 ++ d :: r, TAG_START_STATE, wrapInt (k + 1)⟩, v) := by
  have hm := anyTagMatch_open hT h hd r
  obtain ⟨a, T2, rfl, ha⟩ := variant_head hT h
  have h1 : a ≠ 47 := by omega
  rw [List.cons_append] at hm ⊢
  simp [Lex, hm, h1]

theorem Lex_open_fresh {T1 T : List Nat} (hT : T ∈ tags) (h : caseVariant T1 T)
    {d : Nat} (hd : isTagDelim d = true) (r : List Nat) (v : yySymType) :
    Lex ⟨91 :: (T1 ++ d :: r), INIT_STATE, 0⟩ v =
      some (Token.char 91, ⟨T1 ++ d :: r, TAG_START_STATE, 1⟩, v) := by
  rw [Lex_open hT h hd r 0 v, wrapInt_succ (by decide) (by decide)]
  rfl

theorem Lex_close {T1 T : List Nat} (hT : T ∈ tags) (h : caseVariant T1 T)
    {d : Nat} (hd : isTagDelim d = true) (r : List Nat) (k : Int) (v : yySymType) :
    Lex ⟨91 :: 47 :: (T1 ++ d :: r), INIT_STATE, k⟩ v =
      if k ≤ 0 then some (Token.MISSING_OPENING, ⟨T1 ++ d :: r, TAG_START_STATE, k⟩, v)
      else some (Token.CLOSING_TAG_OPENING, ⟨T1 ++ d :: r, TAG_START_STATE, k - 1⟩, v) := by
  have hm := anyTagMatch_close hT h hd r
  simp [Lex, hm]

theorem Lex_tagStart {T1 T : List Nat} (hT : T ∈ tags) (h : caseVariant T1 T)
    {d : Nat} (hd : isTagDelim d = true) (r : List Nat) (k : Int) (v : yySymType) :
    Lex ⟨T1 ++ d :: r, TAG_START_STATE, k⟩ v =
      some (Token.ID, ⟨d :: r, TAG_ARGS_STATE, k⟩, ⟨T⟩) := by
  have hf := find_tag hT h hd r
  have hl := caseVariant_length h
  obtain ⟨a, T2, rfl, -⟩ := variant_head hT h
  rw [List.cons_append] at hf ⊢
  simp only [Lex, hf]
  rw [← hl, ← List.cons_append, List.drop_left]

theorem Lex_args_close (r : List Nat) (k : Int) (v : yySymType) :
    Lex ⟨93 :: r, TAG_ARGS_STATE, k⟩ v = some (Token.char 93, ⟨r, INIT_STATE, k⟩, v) := by
  simp [Lex, skipSpace, isSpace]

theorem Lex_args_eq (r : List Nat) (k : Int) (v : yySymType) :
    Lex ⟨61 :: r, TAG_ARGS_STATE, k⟩ v = some (Token.char 61, ⟨r, ARG_VALUE_STATE, k⟩, v) := by
  simp [Lex, skipSpace, isSpace]

/-- An unquoted value that runs up to a space or `]` is returned whole: its
first byte is no white space and no quote, and no byte of it is a space, a `]`
or a line feed. -/
theorem Lex_argValue {a : List Nat} (hne : a ≠ [])
    (ha : ∀ b ∈ a, b ≠ 32 ∧ b ≠ 93 ∧ b ≠ 10)
    (hq : ∀ c ∈ a.head?, isSpace c = false ∧ c ≠ 34 ∧ c ≠ 39)
    {d : Nat} (hd : d = 32 ∨ d = 93) (r : List Nat) (k : Int) (v : yySymType) :
    Lex ⟨a ++ d :: r, ARG_VALUE_STATE, k⟩ v =
      some (Token.TEXT, ⟨d :: r, TAG_ARGS_STATE, k⟩, ⟨a⟩) := by
  cases a with
  | nil => exact absurd rfl hne
  | cons c a2 =>
    have hc := ha c (List.mem_cons_self c a2)
    have hq2 := hq c (by simp)
    have hl := lazyRun_append (fun x hx => ha x (List.mem_cons_of_mem c hx)) hd r
    simp only [List.cons_append, Lex, skipSpace, hq2.1]
    simp [hq2.2.1, hq2.2.2, textRegexpFind, hc.2.2, hl]

/-- The text-run rule of the Init branch. -/
theorem Lex_text (c : Nat) (t r : List Nat) (hc : c ≠ 10)
    (hm : c ≠ 91 ∨ anyTagMatch (c :: (t ++ r)) = false)
    (ht : ∀ b ∈ t, b ≠ 91 ∧ b ≠ 10) (hr : runLength r = 0) (k : Int) (v : yySymType) :
    Lex ⟨c :: (t ++ r), INIT_STATE, k⟩ v =
      some (Token.TEXT, ⟨r, INIT_STATE, k⟩, ⟨c :: t⟩) := by
  have hm2 : ¬ (c = 91 ∧ anyTagMatch (c :: (t ++ r)) = true) := by
    rintro ⟨h1, h2⟩
    rcases hm with h | h
    · exact h h1
    · rw [h] at h2; exact Bool.noConfusion h2
  have hl := runLength_append ht r
  simp only [Lex]
  rw [if_neg hc, if_neg hm2]
  simp only [hl, hr, Nat.add_zero]
  have e : 1 + t.length = (c :: t).length := by simp [Nat.add_comm]
  rw [e, ← List.cons_append, List.drop_left, List.take_left]

theorem Lex_empty (m : lexerState) (k : Int) (v : yySymType) :
    Lex ⟨[], m, k⟩ v =
      if k > 0 then some (Token.MISSING_CLOSING, ⟨[], m, k - 1⟩, v)
      else some (Token.eof, ⟨[], m, k⟩, v) := by
  simp [Lex]

/-! ## Runs of calls -/

theorem lexN_cons {l l1 l2 : lexer} {v v1 v2 : yySymType} {t : Token} {n : Nat}
    {es : List Event} (h1 : Lex l v = some (t, l1, v1))
    (h2 : lexN n l1 v1 = some (es, l2, v2)) :
    lexN (n + 1) l v = some (⟨t, v1.str, l1.tagsOpened⟩ :: es, l2, v2) := by
  simp [lexN, h1, h2]

theorem runLength_bracket (r : List Nat) : runLength (91 :: r) = 0 := by
  simp [runLength]

/-- C1: for a registered tag name `T` and a non-empty text `t` without `[` and
without line feed, eight calls of `Lex` on a fresh lexer for `[T]t[/T]` return
`[`, ID with payload `T`, `]`, TEXT with payload `t`, CLOSING_TAG_OPENING, ID
with payload `T`, `]` and end-of-input; `tagsOpened` is 1 from the first token
on and 0 from CLOSING_TAG_OPENING on. -/
theorem lex_open_text_close (T t : List Nat) (v0 : yySymType) (hT : T ∈ tags)
    (hne : t ≠ []) (ht : ∀ b ∈ t, b ≠ 91 ∧ b ≠ 10) :
    lexN 8 (newLexer (91 :: (T ++ 93 :: (t ++ 91 :: 47 :: (T ++ [93]))))) v0 =
      some ([⟨Token.char 91, v0.str, 1⟩, ⟨Token.ID, T, 1⟩, ⟨Token.char 93, T, 1⟩,
             ⟨Token.TEXT, t, 1⟩, ⟨Token.CLOSING_TAG_OPENING, t, 0⟩, ⟨Token.ID, T, 0⟩,
             ⟨Token.char 93, T, 0⟩, ⟨Token.eof, T, 0⟩],
            ⟨[], INIT_STATE, 0⟩, ⟨T⟩) := by
  cases t with
  | nil => exact absurd rfl hne
  | cons c t2 =>
    have hc := ht c (List.mem_cons_self c t2)
    have ht2 : ∀ b ∈ t2, b ≠ 91 ∧ b ≠ 10 := fun x hx => ht x (List.mem_cons_of_mem c hx)
    have hv := caseVariant_refl T
    have hd : isTagDelim 93 = true := by decide
    exact lexN_cons (Lex_open_fresh hT hv hd _ v0)
      (lexN_cons (Lex_tagStart hT hv hd _ 1 v0)
      (lexN_cons (Lex_args_close _ 1 ⟨T⟩)
      (lexN_cons (Lex_text c t2 _ hc.2 (Or.inl hc.1) ht2 (runLength_bracket _) 1 ⟨T⟩)
      (lexN_cons ((Lex_close hT hv hd [] 1 ⟨c :: t2⟩).trans (if_neg (by decide)))
      (lexN_cons (Lex_tagStart hT hv hd [] 0 ⟨c :: t2⟩)
      (lexN_cons (Lex_args_close [] 0 ⟨T⟩)
      (lexN_cons ((Lex_empty INIT_STATE 0 ⟨T⟩).trans (if_neg (by decide))) rfl)))))))

theorem lex_open_text_close_witness :
    lexN 8 (newLexer (91 :: ([98] ++ 93 :: ([104, 105] ++ 91 :: 47 :: ([98] ++ [93]))))) ⟨[]⟩ =
      some ([⟨Token.char 91, [], 1⟩, ⟨Token.ID, [98], 1⟩, ⟨Token.char 93, [98], 1⟩,
             ⟨Token.TEXT, [104, 105], 1⟩, ⟨Token.CLOSING_TAG_OPENING, [104, 105], 0⟩,
             ⟨Token.ID, [98], 0⟩, ⟨Token.char 93, [98], 0⟩, ⟨Token.eof, [98], 0⟩],
            ⟨[], INIT_STATE, 0⟩, ⟨[98]⟩) :=
  lex_open_text_close [98] [104, 105] ⟨[]⟩ (by decide) (by decide) (by decide)

/-- C2: for a registered tag name `T`, a non-empty argument value `a` without
white space byte and without `]` whose first byte is no quote, and a non-empty
text `t` without `[` and without line feed, ten calls of `Lex` on a fresh lexer
for `[T=a]t[/T]` return `[`, ID(`T`), `=`, TEXT(`a`), `]`, TEXT(`t`),
CLOSING_TAG_OPENING, ID(`T`), `]` and end-of-input. -/
theorem lex_open_arg_text_close (T a t : List Nat) (v0 : yySymType) (hT : T ∈ tags)
    (hane : a ≠ []) (ha : ∀ b ∈ a, isSpace b = false ∧ b ≠ 93)
    (hq : ∀ c ∈ a.head?, c ≠ 34 ∧ c ≠ 39)
    (hne : t ≠ []) (ht : ∀ b ∈ t, b ≠ 91 ∧ b ≠ 10) :
    lexN 10 (newLexer (91 :: (T ++ 61 :: (a ++ 93 :: (t ++ 91 :: 47 :: (T ++ [93])))))) v0 =
      some ([⟨Token.char 91, v0.str, 1⟩, ⟨Token.ID, T, 1⟩, ⟨Token.char 61, T, 1⟩,
             ⟨Token.TEXT, a, 1⟩, ⟨Token.char 93, a, 1⟩, ⟨Token.TEXT, t, 1⟩,
             ⟨Token.CLOSING_TAG_OPENING, t, 0⟩, ⟨Token.ID, T, 0⟩,
             ⟨Token.char 93, T, 0⟩, ⟨Token.eof, T, 0⟩],
            ⟨[], INIT_STATE, 0⟩, ⟨T⟩) := by
  cases t with
  | nil => exact absurd rfl hne
  | cons c t2 =>
    have hc := ht c (List.mem_cons_self c t2)
    have ht2 : ∀ b ∈ t2, b ≠ 91 ∧ b ≠ 10 := fun x hx => ht x (List.mem_cons_of_mem c hx)
    have hv := caseVariant_refl T
    have hd : isTagDelim 93 = true := by decide
    have he : isTagDelim 61 = true := by decide
    have ha2 : ∀ b ∈ a, b ≠ 32 ∧ b ≠ 93 ∧ b ≠ 10 := fun b hb =>
      ⟨(isSpace_false_ne (ha b hb).1).1, (ha b hb).2, (isSpace_false_ne (ha b hb).1).2⟩
    have hq2 : ∀ c ∈ a.head?, isSpace c = false ∧ c ≠ 34 ∧ c ≠ 39 := fun c hc =>
      ⟨(ha c (List.mem_of_mem_head? hc)).1, hq c hc⟩
    exact lexN_cons (Lex_open_fresh hT hv he _ v0)
      (lexN_cons (Lex_tagStart hT hv he _ 1 v0)
      (lexN_cons (Lex_args_eq _ 1 ⟨T⟩)
      (lexN_cons (Lex_argValue hane ha2 hq2 (Or.inr rfl) _ 1 ⟨T⟩)
      (lexN_cons (Lex_args_close _ 1 ⟨a⟩)
      (lexN_cons (Lex_text c t2 _ hc.2 (Or.inl hc.1) ht2 (runLength_bracket _) 1 ⟨a⟩)
      (lexN_cons ((Lex_close hT hv hd [] 1 ⟨c :: t2⟩).trans (if_neg (by decide)))
      (lexN_cons (Lex_tagStart hT hv hd [] 0 ⟨c :: t2⟩)
      (lexN_cons (Lex_args_close [] 0 ⟨T⟩)
      (lexN_cons ((Lex_empty INIT_STATE 0 ⟨T⟩).trans (if_neg (by decide))) rfl)))))))))

theorem lex_open_arg_text_close_witness :
    lexN 10 (newLexer (91 :: ([117, 114, 108] ++ 61 :: ([104, 116, 116, 112, 58, 47, 47, 120]
        ++ 93 :: ([108, 105, 110, 107] ++ 91 :: 47 :: ([117, 114, 108] ++ [93])))))) ⟨[]⟩ =
      some ([⟨Token.char 91, [], 1⟩, ⟨Token.ID, [117, 114, 108], 1⟩,
             ⟨Token.char 61, [117, 114, 108], 1⟩,
             ⟨Token.TEXT, [104, 116, 116, 112, 58, 47, 47, 120], 1⟩,
             ⟨Token.char 93, [104, 116, 116, 112, 58, 47, 47, 120], 1⟩,
             ⟨Token.TEXT, [108, 105, 110, 107], 1⟩,
             ⟨Token.CLOSING_TAG_OPENING, [108, 105, 110, 107], 0⟩,
             ⟨Token.ID, [117, 114, 108], 0⟩, ⟨Token.char 93, [117, 114, 108], 0⟩,
             ⟨Token.eof, [117, 114, 108], 0⟩],
            ⟨[], INIT_STATE, 0⟩, ⟨[117, 114, 108]⟩) :=
  lex_open_arg_text_close [117, 114, 108] [104, 116, 116, 112, 58, 47, 47, 120]
    [108, 105, 110, 107] ⟨[]⟩ (by decide) (by decide) (by decide) (by decide) (by decide)
    (by decide)

/-- C3: for a registered tag name `T`, any letter-case variant `T1` of it, a
delimiter `d` among `]`, `=`, space and tab, and any rest `r`, a fresh lexer on
`[` `T1` `d` `r` returns `[` on the first call and ID with the lower-case
payload `T` on the second, after which the remaining input is `d` followed by
`r` and the mode is TagArgs. -/
theorem tag_name_case_insensitive (T T1 r : List Nat) (d : Nat) (v0 : yySymType)
    (hT : T ∈ tags) (hv : caseVariant T1 T) (hd : d = 93 ∨ d = 61 ∨ d = 32 ∨ d = 9) :
    lexN 2 (newLexer (91 :: (T1 ++ d :: r))) v0 =
      some ([⟨Token.char 91, v0.str, 1⟩, ⟨Token.ID, T, 1⟩],
            ⟨d :: r, TAG_ARGS_STATE, 1⟩, ⟨T⟩) := by
  have hd2 : isTagDelim d = true := by
    rcases hd with rfl | rfl | rfl | rfl <;> decide
  exact lexN_cons (Lex_open_fresh hT hv hd2 r v0)
    (lexN_cons (Lex_tagStart hT hv hd2 r 1 v0) rfl)

theorem tag_name_case_insensitive_witness :
    lexN 2 (newLexer (91 :: ([85, 114, 76] ++ 32 :: [120, 93]))) ⟨[]⟩ =
      some ([⟨Token.char 91, [], 1⟩, ⟨Token.ID, [117, 114, 108], 1⟩],
            ⟨32 :: [120, 93], TAG_ARGS_STATE, 1⟩, ⟨[117, 114, 108]⟩) :=
  tag_name_case_insensitive [117, 114, 108] [85, 114, 76] [120, 93] 32 ⟨[]⟩ (by decide)
    (List.Forall₂.cons (Or.inr rfl) (List.Forall₂.cons (Or.inl rfl)
      (List.Forall₂.cons (Or.inr rfl) List.Forall₂.nil)))
    (by decide)

theorem anyTagMatch_false {s : List Nat} (h : ∀ tag ∈ tags, tagRegexpMatch tag s = false) :
    anyTagMatch s = false := by
  simp only [anyTagMatch, List.any_eq_false]
  intro tag htag
  simp [h tag htag]

theorem anyTagMatch_true {s : List Nat} (h : ∃ tag ∈ tags, tagRegexpMatch tag s = true) :
    anyTagMatch s = true := by
  simp only [anyTagMatch, List.any_eq_true]
  exact h

theorem runLength_all {r : List Nat} (hr : ∀ b ∈ r, b ≠ 91 ∧ b ≠ 10) :
    runLength r = r.length := by
  simpa [runLength] using runLength_append hr []

/-- C4: an input that begins with `[`, is matched by none of the eight tag
patterns and has no further `[` and no line feed lexes, on a fresh lexer, as
one TEXT token whose payload is the whole input, followed by end-of-input;
`tagsOpened` stays 0. -/
theorem unknown_bracket_is_text (r : List Nat) (v0 : yySymType)
    (hm : ∀ tag ∈ tags, tagRegexpMatch tag (91 :: r) = false)
    (hr : ∀ b ∈ r, b ≠ 91 ∧ b ≠ 10) :
    lexN 2 (newLexer (91 :: r)) v0 =
      some ([⟨Token.TEXT, 91 :: r, 0⟩, ⟨Token.eof, 91 :: r, 0⟩],
            ⟨[], INIT_STATE, 0⟩, ⟨91 :: r⟩) := by
  have h0 : anyTagMatch (91 :: (r ++ [])) = false := by
    rw [List.append_nil]; exact anyTagMatch_false hm
  have h1 := Lex_text 91 r [] (by decide) (Or.inr h0) hr rfl 0 v0
  rw [List.append_nil] at h1
  exact lexN_cons h1
    (lexN_cons ((Lex_empty INIT_STATE 0 ⟨91 :: r⟩).trans (if_neg (by decide))) rfl)

theorem unknown_bracket_is_text_witness :
    lexN 2 (newLexer (91 :: [102, 111, 111, 93, 32, 98, 97, 114])) ⟨[]⟩ =
      some ([⟨Token.TEXT, 91 :: [102, 111, 111, 93, 32, 98, 97, 114], 0⟩,
             ⟨Token.eof, 91 :: [102, 111, 111, 93, 32, 98, 97, 114], 0⟩],
            ⟨[], INIT_STATE, 0⟩, ⟨91 :: [102, 111, 111, 93, 32, 98, 97, 114]⟩) :=
  unknown_bracket_is_text [102, 111, 111, 93, 32, 98, 97, 114] ⟨[]⟩ (by decide) (by decide)

/-- C5: in Init mode with `tagsOpened = 0`, on a remaining input that starts
with `[/` and is matched by some tag pattern, `Lex` returns MISSING_OPENING,
leaves `tagsOpened` at 0, switches to TagStart and consumes exactly the two
bytes `[/`; and for every registered tag name `T` a fresh lexer on `[/T]`
returns MISSING_OPENING, ID(`T`), `]` and end-of-input. -/
theorem stray_close_missing_opening (r T : List Nat) (v v0 : yySymType)
    (hm : ∃ tag ∈ tags, tagRegexpMatch tag (91 :: 47 :: r) = true) (hT : T ∈ tags) :
    Lex ⟨91 :: 47 :: r, INIT_STATE, 0⟩ v =
        some (Token.MISSING_OPENING, ⟨r, TAG_START_STATE, 0⟩, v) ∧
    lexN 4 (newLexer (91 :: 47 :: (T ++ [93]))) v0 =
      some ([⟨Token.MISSING_OPENING, v0.str, 0⟩, ⟨Token.ID, T, 0⟩,
             ⟨Token.char 93, T, 0⟩, ⟨Token.eof, T, 0⟩],
            ⟨[], INIT_STATE, 0⟩, ⟨T⟩) := by
  have hv := caseVariant_refl T
  have hd : isTagDelim 93 = true := by decide
  refine ⟨?_, ?_⟩
  · simp [Lex, anyTagMatch_true hm]
  · exact lexN_cons ((Lex_close hT hv hd [] 0 v0).trans (if_pos (by decide)))
      (lexN_cons (Lex_tagStart hT hv hd [] 0 v0)
      (lexN_cons (Lex_args_close [] 0 ⟨T⟩)
      (lexN_cons ((Lex_empty INIT_STATE 0 ⟨T⟩).trans (if_neg (by decide))) rfl)))

theorem stray_close_missing_opening_witness :
    Lex ⟨91 :: 47 :: [66, 32, 120], INIT_STATE, 0⟩ ⟨[7]⟩ =
        some (Token.MISSING_OPENING, ⟨[66, 32, 120], TAG_START_STATE, 0⟩, ⟨[7]⟩) ∧
    lexN 4 (newLexer (91 :: 47 :: ([98] ++ [93]))) ⟨[]⟩ =
      some ([⟨Token.MISSING_OPENING, [], 0⟩, ⟨Token.ID, [98], 0⟩,
             ⟨Token.char 93, [98], 0⟩, ⟨Token.eof, [98], 0⟩],
            ⟨[], INIT_STATE, 0⟩, ⟨[98]⟩) :=
  stray_close_missing_opening [66, 32, 120] [98] ⟨[7]⟩ ⟨[]⟩ ⟨[98], by decide, by decide⟩
    (by decide)

theorem lexN_eof_repeat (st : lexerState) (v : yySymType) (j : Nat) :
    lexN j ⟨[], st, 0⟩ v =
      some (List.replicate j ⟨Token.eof, v.str, 0⟩, ⟨[], st, 0⟩, v) := by
  induction j with
  | zero => rfl
  | succ j ih =>
    exact lexN_cons ((Lex_empty st 0 v).trans (if_neg (by decide))) ih

theorem lexN_drain (st : lexerState) (v : yySymType) (j : Nat) (k : Nat) :
    lexN (k + j) ⟨[], st, (k : Int)⟩ v =
      some (((List.range k).reverse.map fun i => (⟨Token.MISSING_CLOSING, v.str, (i : Int)⟩ : Event))
              ++ List.replicate j ⟨Token.eof, v.str, 0⟩,
            ⟨[], st, 0⟩, v) := by
  induction k with
  | zero => simpa using lexN_eof_repeat st v j
  | succ k ih =>
    have h1 : Lex ⟨[], st, ((k + 1 : Nat) : Int)⟩ v =
        some (Token.MISSING_CLOSING, ⟨[], st, (k : Int)⟩, v) := by
      rw [Lex_empty, if_pos (by push_cast; omega)]
      simp
    have e : k + 1 + j = (k + j) + 1 := by omega
    rw [e, lexN_cons h1 ih, List.range_succ]
    simp

/-- C7: on an empty remaining input, in any mode, with `tagsOpened = k`, the
next `k` calls each return MISSING_CLOSING and lower `tagsOpened` by one (to
`k-1`, ..., `0`), call `k+1` returns end-of-input, and every later call returns
end-of-input again with the lexer and the payload slot unchanged; and for a
registered tag name `T` and a non-empty text `t` without `[` and without line
feed the input `[T]t` lexes to `[`, ID(`T`), `]`, TEXT(`t`), MISSING_CLOSING and
end-of-input. -/
theorem drain_at_end_of_input (st : lexerState) (k j : Nat) (v v0 : yySymType)
    (T t : List Nat) (hT : T ∈ tags) (hne : t ≠ []) (ht : ∀ b ∈ t, b ≠ 91 ∧ b ≠ 10) :
    lexN (k + (j + 1)) ⟨[], st, (k : Int)⟩ v =
      some (((List.range k).reverse.map fun i => (⟨Token.MISSING_CLOSING, v.str, (i : Int)⟩ : Event))
              ++ List.replicate (j + 1) ⟨Token.eof, v.str, 0⟩,
            ⟨[], st, 0⟩, v) ∧
    lexN 6 (newLexer (91 :: (T ++ 93 :: t))) v0 =
      some ([⟨Token.char 91, v0.str, 1⟩, ⟨Token.ID, T, 1⟩, ⟨Token.char 93, T, 1⟩,
             ⟨Token.TEXT, t, 1⟩, ⟨Token.MISSING_CLOSING, t, 0⟩, ⟨Token.eof, t, 0⟩],
            ⟨[], INIT_STATE, 0⟩, ⟨t⟩) := by
  refine ⟨lexN_drain st v (j + 1) k, ?_⟩
  cases t with
  | nil => exact absurd rfl hne
  | cons c t2 =>
    have hc := ht c (List.mem_cons_self c t2)
    have ht2 : ∀ b ∈ t2, b ≠ 91 ∧ b ≠ 10 := fun x hx => ht x (List.mem_cons_of_mem c hx)
    have hv := caseVariant_refl T
    have hd : isTagDelim 93 = true := by decide
    have h4 := Lex_text c t2 [] hc.2 (Or.inl hc.1) ht2 rfl 1 ⟨T⟩
    rw [List.append_nil] at h4
    exact lexN_cons (Lex_open_fresh hT hv hd _ v0)
      (lexN_cons (Lex_tagStart hT hv hd _ 1 v0)
      (lexN_cons (Lex_args_close _ 1 ⟨T⟩)
      (lexN_cons h4
      (lexN_cons ((Lex_empty INIT_STATE 1 ⟨c :: t2⟩).trans (if_pos (by decide)))
      (lexN_cons ((Lex_empty INIT_STATE 0 ⟨c :: t2⟩).trans (if_neg (by decide))) rfl)))))

theorem drain_at_end_of_input_witness :
    lexN (2 + (1 + 1)) ⟨[], TAG_ARGS_STATE, ((2 : Nat) : Int)⟩ ⟨[7]⟩ =
      some (((List.range 2).reverse.map fun i => (⟨Token.MISSING_CLOSING, [7], (i : Int)⟩ : Event))
              ++ List.replicate (1 + 1) ⟨Token.eof, [7], 0⟩,
            ⟨[], TAG_ARGS_STATE, 0⟩, ⟨[7]⟩) ∧
    lexN 6 (newLexer (91 :: ([98] ++ 93 :: [111, 111, 112, 115]))) ⟨[]⟩ =
      some ([⟨Token.char 91, [], 1⟩, ⟨Token.ID, [98], 1⟩, ⟨Token.char 93, [98], 1⟩,
             ⟨Token.TEXT, [111, 111, 112, 115], 1⟩,
             ⟨Token.MISSING_CLOSING, [111, 111, 112, 115], 0⟩,
             ⟨Token.eof, [111, 111, 112, 115], 0⟩],
            ⟨[], INIT_STATE, 0⟩, ⟨[111, 111, 112, 115]⟩) :=
  drain_at_end_of_input TAG_ARGS_STATE 2 1 ⟨[7]⟩ ⟨[]⟩ [98] [111, 111, 112, 115]
    (by decide) (by decide) (by decide)

/-! ## Invariants of a single call -/

theorem depthDelta_bracket : depthDelta (Token.char 91) = 1 := rfl

theorem depthDelta_le_zero {t : Token} (ht : t ≠ Token.char 91) : depthDelta t ≤ 0 := by
  unfold depthDelta
  split <;> simp_all

/-- Every token other than the literal `[` goes with the exact change
`depthDelta`: no arithmetic on `tagsOpened` leaves the range there. -/
theorem Lex_depth_other {l l1 : lexer} {v v1 : yySymType} {t : Token}
    (h : Lex l v = some (t, l1, v1)) (ht : t ≠ Token.char 91) :
    l1.tagsOpened = l.tagsOpened + depthDelta t := by
  unfold Lex at h
  repeat' split at h
  all_goals (cases h <;> simp_all [depthDelta] <;> omega)

/-- The literal `[` is returned only by the opening-tag branch, which consumes
the bracket and increments `tagsOpened` in `int` arithmetic. -/
theorem Lex_bracket {l l1 : lexer} {v v1 : yySymType}
    (h : Lex l v = some (Token.char 91, l1, v1)) :
    l1.tagsOpened = wrapInt (l.tagsOpened + 1) ∧ l1.str.length + 1 ≤ l.str.length := by
  unfold Lex at h
  repeat' split at h
  all_goals (cases h <;> simp_all)

theorem Lex_nonneg_other {l l1 : lexer} {v v1 : yySymType} {t : Token}
    (h0 : 0 ≤ l.tagsOpened) (h : Lex l v = some (t, l1, v1)) (ht : t ≠ Token.char 91) :
    0 ≤ l1.tagsOpened := by
  unfold Lex at h
  repeat' split at h
  all_goals (cases h <;> simp_all <;> omega)

theorem Lex_depth {l l1 : lexer} {v v1 : yySymType} {t : Token}
    (hlo : minInt ≤ l.tagsOpened) (hhi : l.tagsOpened < maxInt)
    (h : Lex l v = some (t, l1, v1)) :
    l1.tagsOpened = l.tagsOpened + depthDelta t := by
  by_cases ht : t = Token.char 91
  · subst ht
    rw [(Lex_bracket h).1, wrapInt_succ hlo hhi, depthDelta_bracket]
  · exact Lex_depth_other h ht

theorem Lex_nonneg {l l1 : lexer} {v v1 : yySymType} {t : Token}
    (h0 : 0 ≤ l.tagsOpened) (hhi : l.tagsOpened < maxInt)
    (h : Lex l v = some (t, l1, v1)) : 0 ≤ l1.tagsOpened := by
  by_cases ht : t = Token.char 91
  · subst ht
    have hlo : minInt ≤ l.tagsOpened := by unfold minInt; omega
    rw [(Lex_bracket h).1, wrapInt_succ hlo hhi]
    omega
  · exact Lex_nonneg_other h0 h ht

/-- On an exhausted buffer a call returns MISSING_CLOSING or end-of-input and
the buffer stays exhausted. -/
theorem Lex_of_empty {l l1 : lexer} {v v1 : yySymType} {t : Token}
    (he : l.str = []) (h : Lex l v = some (t, l1, v1)) :
    l1.str = [] ∧ ((t = Token.MISSING_CLOSING ∧ 0 < l.tagsOpened) ∨
      (t = Token.eof ∧ l.tagsOpened ≤ 0)) := by
  unfold Lex at h
  rw [he] at h
  simp only at h
  split at h <;> cases h <;> simp_all

/-- While input remains a call never returns MISSING_CLOSING, and when it
returns end-of-input the input still remains. -/
theorem Lex_of_nonempty {l l1 : lexer} {v v1 : yySymType} {t : Token}
    (he : l.str ≠ []) (h : Lex l v = some (t, l1, v1)) :
    t ≠ Token.MISSING_CLOSING ∧ (t = Token.eof → l1.str ≠ []) := by
  unfold Lex at h
  repeat' split at h
  all_goals (cases h <;> simp_all)

theorem skipSpace_length : ∀ (s : List Nat) (c1 : Nat) (rest1 : List Nat),
    skipSpace s = some (c1, rest1) → rest1.length + 1 ≤ s.length := by
  intro s
  induction s with
  | nil => intro c1 rest1 h; cases h
  | cons c rest ih =>
    intro c1 rest1 h
    simp only [skipSpace] at h
    split at h
    · have := ih c1 rest1 h
      simp only [List.length_cons]
      omega
    · cases h
      simp

theorem Lex_length_le {l l1 : lexer} {v v1 : yySymType} {t : Token}
    (h : Lex l v = some (t, l1, v1)) : l1.str.length ≤ l.str.length := by
  unfold Lex at h
  repeat' split at h
  all_goals
    (try have hk := skipSpace_length _ _ _ ‹skipSpace _ = some _›
     cases h <;> simp_all <;> omega)

/-- Every byte is consumed at most once and `tagsOpened` grows only when a `[`
is consumed.  So from a state with `tagsOpened >= 0` in which `tagsOpened` plus
the length of the remaining input is at most `maxInt`, the increment does not
wrap around: `tagsOpened` stays at least 0, changes by exactly `depthDelta` of
the returned token, and `tagsOpened` plus the remaining length does not grow. -/
theorem Lex_inv {l l1 : lexer} {v v1 : yySymType} {t : Token}
    (h0 : 0 ≤ l.tagsOpened) (hb : l.tagsOpened + l.str.length ≤ maxInt)
    (h : Lex l v = some (t, l1, v1)) :
    0 ≤ l1.tagsOpened ∧ l1.tagsOpened + l1.str.length ≤ l.tagsOpened + l.str.length ∧
      l1.tagsOpened = l.tagsOpened + depthDelta t := by
  by_cases ht : t = Token.char 91
  · subst ht
    obtain ⟨hw, hlen⟩ := Lex_bracket h
    have hlo : minInt ≤ l.tagsOpened := by unfold minInt; omega
    have hhi : l.tagsOpened < maxInt := by omega
    rw [wrapInt_succ hlo hhi] at hw
    rw [depthDelta_bracket]
    omega
  · have hd := Lex_depth_other h ht
    have hn := Lex_nonneg_other h0 h ht
    have hl := Lex_length_le h
    have hz := depthDelta_le_zero ht
    omega

/-! ## Invariants of runs -/

theorem lexN_succ_inv {n : Nat} {l l2 : lexer} {v v2 : yySymType} {es : List Event}
    (h : lexN (n + 1) l v = some (es, l2, v2)) :
    ∃ t l1 v1 es1, Lex l v = some (t, l1, v1) ∧ lexN n l1 v1 = some (es1, l2, v2) ∧
      es = ⟨t, v1.str, l1.tagsOpened⟩ :: es1 := by
  simp only [lexN] at h
  split at h
  · cases h
  · split at h
    · cases h
    · cases h
      exact ⟨_, _, _, _, by assumption, by assumption, rfl⟩

theorem lexN_inv (n : Nat) : ∀ (l l2 : lexer) (v v2 : yySymType) (es : List Event),
    0 ≤ l.tagsOpened → l.tagsOpened + l.str.length ≤ maxInt →
    lexN n l v = some (es, l2, v2) →
    0 ≤ l2.tagsOpened ∧ l2.tagsOpened + l2.str.length ≤ l.tagsOpened + l.str.length ∧
      ∀ e ∈ es, 0 ≤ e.depth ∧ e.depth ≤ l.tagsOpened + l.str.length := by
  induction n with
  | zero =>
    intro l l2 v v2 es h0 _ h
    cases h
    exact ⟨h0, le_refl _, by simp⟩
  | succ n ih =>
    intro l l2 v v2 es h0 hb h
    obtain ⟨t, l1, v1, es1, hs, hr, rfl⟩ := lexN_succ_inv h
    obtain ⟨h1, h1b, -⟩ := Lex_inv h0 hb hs
    obtain ⟨h2, h2b, h3⟩ := ih l1 l2 v1 v2 es1 h1 (le_trans h1b hb) hr
    refine ⟨h2, le_trans h2b h1b, ?_⟩
    intro e he
    rcases List.mem_cons.mp he with rfl | he
    · refine ⟨h1, ?_⟩
      show l1.tagsOpened ≤ _
      have : (0 : Int) ≤ l1.str.length := Int.natCast_nonneg _
      omega
    · exact ⟨(h3 e he).1, le_trans (h3 e he).2 h1b⟩

/-- C10 (as stated, refuted): from the state with `tagsOpened = maxInt`, which
is at least 0, in Init mode on `[b]`, the call returns `[` and leaves
`tagsOpened = minInt`, which is negative: the increment wraps around. -/
theorem increment_wraps_negative :
    (0 : Int) ≤ (⟨[91, 98, 93], INIT_STATE, 9223372036854775807⟩ : lexer).tagsOpened ∧
    Lex ⟨[91, 98, 93], INIT_STATE, 9223372036854775807⟩ ⟨[]⟩ =
      some (Token.char 91, ⟨[98, 93], TAG_START_STATE, -9223372036854775808⟩, ⟨[]⟩) ∧
    (⟨[98, 93], TAG_START_STATE, -9223372036854775808⟩ : lexer).tagsOpened < 0 := by
  refine ⟨?_, ?_, ?_⟩ <;> decide

/-- C10 (amended): `tagsOpened` never goes negative on a fresh lexer: for every
input (of length at most `maxInt`, as the length of every Go string is) and
every number of calls of `Lex` that return, `tagsOpened` is at least 0 after
every call; the same holds from any lexer with `tagsOpened >= 0` in which
`tagsOpened` plus the length of the remaining input is at most `maxInt`, and
for a single call from any lexer with `0 <= tagsOpened < maxInt`. -/
theorem tagsOpened_never_negative (input : List Nat) (n : Nat) (l l1 l2 : lexer)
    (v v1 v2 : yySymType) (t : Token) (es : List Event) :
    ((input.length : Int) ≤ maxInt → lexN n (newLexer input) v = some (es, l2, v2) →
      0 ≤ l2.tagsOpened ∧ ∀ e ∈ es, 0 ≤ e.depth) ∧
    (0 ≤ l.tagsOpened → l.tagsOpened + l.str.length ≤ maxInt →
      lexN n l v = some (es, l2, v2) →
      0 ≤ l2.tagsOpened ∧ ∀ e ∈ es, 0 ≤ e.depth) ∧
    (0 ≤ l.tagsOpened → l.tagsOpened < maxInt → Lex l v = some (t, l1, v1) →
      0 ≤ l1.tagsOpened) := by
  refine ⟨?_, ?_, ?_⟩
  · intro hlen h
    have hb : (newLexer input).tagsOpened + (newLexer input).str.length ≤ maxInt := by
      simp only [newLexer]
      omega
    obtain ⟨h2, -, h3⟩ := lexN_inv n (newLexer input) l2 v v2 es (le_refl 0) hb h
    exact ⟨h2, fun e he => (h3 e he).1⟩
  · intro h0 hb h
    obtain ⟨h2, -, h3⟩ := lexN_inv n l l2 v v2 es h0 hb h
    exact ⟨h2, fun e he => (h3 e he).1⟩
  · intro h0 hhi h
    exact Lex_nonneg h0 hhi h

theorem tagsOpened_never_negative_witness :
    ((0 : Int) ≤ (⟨[98, 93], TAG_START_STATE, 1⟩ : lexer).tagsOpened ∧
      ∀ e ∈ [(⟨Token.char 91, [], 1⟩ : Event)], 0 ≤ e.depth) ∧
    ((0 : Int) ≤ (⟨[98, 93], TAG_START_STATE, 1⟩ : lexer).tagsOpened ∧
      ∀ e ∈ [(⟨Token.char 91, [], 1⟩ : Event)], 0 ≤ e.depth) ∧
    (0 : Int) ≤ (⟨[98, 93], TAG_START_STATE, 1⟩ : lexer).tagsOpened :=
  ⟨(tagsOpened_never_negative [91, 98, 93] 1 ⟨[91, 98, 93], INIT_STATE, 0⟩
      ⟨[98, 93], TAG_START_STATE, 1⟩ ⟨[98, 93], TAG_START_STATE, 1⟩ ⟨[]⟩ ⟨[]⟩ ⟨[]⟩
      (Token.char 91) [⟨Token.char 91, [], 1⟩]).1 (by decide) (by decide),
   (tagsOpened_never_negative [91, 98, 93] 1 ⟨[91, 98, 93], INIT_STATE, 0⟩
      ⟨[98, 93], TAG_START_STATE, 1⟩ ⟨[98, 93], TAG_START_STATE, 1⟩ ⟨[]⟩ ⟨[]⟩ ⟨[]⟩
      (Token.char 91) [⟨Token.char 91, [], 1⟩]).2.1 (by decide) (by decide) (by decide),
   (tagsOpened_never_negative [91, 98, 93] 1 ⟨[91, 98, 93], INIT_STATE, 0⟩
      ⟨[98, 93], TAG_START_STATE, 1⟩ ⟨[98, 93], TAG_START_STATE, 1⟩ ⟨[]⟩ ⟨[]⟩ ⟨[]⟩
      (Token.char 91) [⟨Token.char 91, [], 1⟩]).2.2 (by decide) (by decide) (by decide)⟩

theorem lexN_of_empty (n : Nat) : ∀ (l l2 : lexer) (v v2 : yySymType) (es : List Event),
    l.str = [] → lexN n l v = some (es, l2, v2) →
    ∀ e ∈ es, e.tok = Token.MISSING_CLOSING ∨ e.tok = Token.eof := by
  induction n with
  | zero =>
    intro l l2 v v2 es _ h
    cases h
    simp
  | succ n ih =>
    intro l l2 v v2 es he h
    obtain ⟨t, l1, v1, es1, hs, hr, rfl⟩ := lexN_succ_inv h
    obtain ⟨h1, h2⟩ := Lex_of_empty he hs
    intro e hmem
    rcases List.mem_cons.mp hmem with rfl | hmem
    · rcases h2 with h2 | h2
      · exact Or.inl h2.1
      · exact Or.inr h2.1
    · exact ih l1 l2 v1 v2 es1 h1 hr e hmem

theorem depthDelta_count (t : Token) (ht : t ≠ Token.MISSING_CLOSING) (pre : List Token) :
    (((t :: pre).count (Token.char 91) : Nat) : Int) - ((t :: pre).count Token.CLOSING_TAG_OPENING : Nat) =
      depthDelta t + ((pre.count (Token.char 91) : Nat) : Int) - (pre.count Token.CLOSING_TAG_OPENING : Nat) := by
  by_cases h1 : t = Token.char 91
  · subst h1
    simp [depthDelta]
    omega
  · by_cases h2 : t = Token.CLOSING_TAG_OPENING
    · subst h2
      simp [depthDelta]
      omega
    · have e1 : (t :: pre).count (Token.char 91) = pre.count (Token.char 91) :=
        List.count_cons_of_ne (Ne.symm h1) pre
      have e2 : (t :: pre).count Token.CLOSING_TAG_OPENING = pre.count Token.CLOSING_TAG_OPENING :=
        List.count_cons_of_ne (Ne.symm h2) pre
      have e3 : depthDelta t = 0 := by
        unfold depthDelta
        split <;> simp_all
      rw [e1, e2, e3]
      omega

theorem lexN_length (n : Nat) : ∀ (l l2 : lexer) (v v2 : yySymType) (es : List Event),
    lexN n l v = some (es, l2, v2) → es.length = n := by
  induction n with
  | zero =>
    intro l l2 v v2 es h
    cases h
    rfl
  | succ n ih =>
    intro l l2 v v2 es h
    obtain ⟨t, l1, v1, es1, -, hr, rfl⟩ := lexN_succ_inv h
    simp [ih l1 l2 v1 v2 es1 hr]

/-- The shape of a run that ends with the first end-of-input token, returned on
an exhausted buffer: the tokens before it are some tokens without
MISSING_CLOSING followed by as many MISSING_CLOSING as the depth then open. -/
theorem drain_shape (n : Nat) : ∀ (l l2 : lexer) (v v2 : yySymType) (es : List Event)
    (body : List Token), 0 ≤ l.tagsOpened → l.tagsOpened + l.str.length ≤ maxInt →
    lexN n l v = some (es, l2, v2) →
    es.map Event.tok = body ++ [Token.eof] → Token.eof ∉ body → l2.str = [] →
    ∃ pre d, body = pre ++ List.replicate d Token.MISSING_CLOSING ∧
      Token.MISSING_CLOSING ∉ pre ∧
      (d : Int) = l.tagsOpened + ((pre.count (Token.char 91) : Nat) : Int)
        - (pre.count Token.CLOSING_TAG_OPENING : Nat) := by
  induction n with
  | zero =>
    intro l l2 v v2 es body _ _ h hb _ _
    cases h
    simp at hb
  | succ n ih =>
    intro l l2 v v2 es body h0 hbud h hb hne hl2
    obtain ⟨t, l1, v1, es1, hs, hr, rfl⟩ := lexN_succ_inv h
    obtain ⟨h1, hbud1, hdep⟩ := Lex_inv h0 hbud hs
    cases body with
    | nil =>
      simp only [List.map_cons, List.nil_append, List.cons.injEq, List.map_eq_nil_iff] at hb
      obtain ⟨rfl, rfl⟩ := hb
      have hn := lexN_length n l1 l2 v1 v2 [] hr
      simp only [List.length_nil] at hn
      subst hn
      cases hr
      have hl : l.str = [] := by
        by_contra hc
        exact (Lex_of_nonempty hc hs).2 rfl hl2
      have h2 := (Lex_of_empty hl hs).2
      refine ⟨[], 0, by simp, by simp, ?_⟩
      rcases h2 with h2 | h2
      · exact absurd h2.1 (by simp)
      · simp
        omega
    | cons b body1 =>
      simp only [List.map_cons, List.cons_append, List.cons.injEq] at hb
      obtain ⟨rfl, hb1⟩ := hb
      have hne1 : Token.eof ∉ body1 := fun hx => hne (List.mem_cons_of_mem _ hx)
      obtain ⟨pre1, d1, hbody, hpre, hd⟩ :=
        ih l1 l2 v1 v2 es1 body1 h1 (le_trans hbud1 hbud) hr hb1 hne1 hl2
      by_cases hmc : t = Token.MISSING_CLOSING
      · subst hmc
        have hl : l.str = [] := by
          by_contra hc
          exact (Lex_of_nonempty hc hs).1 rfl
        have hl1 := (Lex_of_empty hl hs).1
        have hall := lexN_of_empty n l1 l2 v1 v2 es1 hl1 hr
        have hpre1 : pre1 = [] := by
          apply List.eq_nil_iff_forall_not_mem.mpr
          intro x hx
          have hxb : x ∈ body1 := by rw [hbody]; exact List.mem_append_left _ hx
          have hxe : x ∈ es1.map Event.tok := by rw [hb1]; exact List.mem_append_left _ hxb
          obtain ⟨e, he, rfl⟩ := List.mem_map.mp hxe
          rcases hall e he with h3 | h3
          · exact hpre (h3 ▸ hx)
          · exact hne1 (h3 ▸ hxb)
        subst hpre1
        refine ⟨[], d1 + 1, ?_, by simp, ?_⟩
        · rw [hbody]
          simp [List.replicate_succ]
        · simp only [depthDelta] at hdep
          simp at hd ⊢
          omega
      · refine ⟨t :: pre1, d1, ?_, ?_, ?_⟩
        · rw [hbody]
          simp
        · intro hx
          rcases List.mem_cons.mp hx with h3 | h3
          · exact hmc h3.symm
          · exact hpre h3
        · have hc := depthDelta_count t hmc pre1
          omega

/-- C6 (as stated, refuted): on the input `[b="x"]` the first end-of-input token
is the fourth token, returned for the quoted value while input remains; one `[`
and no CLOSING_TAG_OPENING precede it, yet no MISSING_CLOSING is emitted. -/
theorem quoted_value_ends_without_drain :
    lexN 4 (newLexer [91, 98, 61, 34, 120, 34, 93]) ⟨[]⟩ =
      some ([⟨Token.char 91, [], 1⟩, ⟨Token.ID, [98], 1⟩, ⟨Token.char 61, [98], 1⟩,
             ⟨Token.eof, [98], 1⟩],
            ⟨[34, 120, 34, 93], ARG_VALUE_STATE, 1⟩, ⟨[98]⟩) ∧
    [Token.char 91, Token.ID, Token.char 61].count (Token.char 91)
      - [Token.char 91, Token.ID, Token.char 61].count Token.CLOSING_TAG_OPENING = 1 ∧
    [Token.char 91, Token.ID, Token.char 61].count Token.MISSING_CLOSING = 0 := by
  refine ⟨?_, by decide, by decide⟩
  decide

/-- C6 (amended): for every input, when the calls on a fresh lexer up to and
including the first end-of-input token end with the buffer exhausted (the
end-of-input token is not the early one returned for a quoted argument value),
then with `N` the number of `[` tokens and `M` the number of
CLOSING_TAG_OPENING tokens, `M <= N`, exactly `N - M` MISSING_CLOSING tokens
are emitted, one per call, and they are the tokens immediately before the
end-of-input token.  The input is a Go string, so its length is at most
`maxInt`. -/
theorem missing_closing_before_end (input : List Nat) (v0 v2 : yySymType) (n : Nat)
    (es : List Event) (l2 : lexer) (body : List Token)
    (hlen : (input.length : Int) ≤ maxInt)
    (h : lexN n (newLexer input) v0 = some (es, l2, v2))
    (hb : es.map Event.tok = body ++ [Token.eof]) (hne : Token.eof ∉ body)
    (hend : l2.str = []) :
    body.count Token.CLOSING_TAG_OPENING ≤ body.count (Token.char 91) ∧
    body.count Token.MISSING_CLOSING =
      body.count (Token.char 91) - body.count Token.CLOSING_TAG_OPENING ∧
    ∃ pre, body = pre ++ List.replicate
        (body.count (Token.char 91) - body.count Token.CLOSING_TAG_OPENING)
        Token.MISSING_CLOSING ∧ Token.MISSING_CLOSING ∉ pre := by
  obtain ⟨pre, d, hbody, hpre, hd⟩ :=
    drain_shape n (newLexer input) l2 v0 v2 es body (le_refl 0)
      (by simp only [newLexer]; omega) h hb hne hend
  have hN : body.count (Token.char 91) = pre.count (Token.char 91) := by
    rw [hbody, List.count_append, List.count_replicate]
    simp
  have hM : body.count Token.CLOSING_TAG_OPENING = pre.count Token.CLOSING_TAG_OPENING := by
    rw [hbody, List.count_append, List.count_replicate]
    simp
  have hC : body.count Token.MISSING_CLOSING = d := by
    rw [hbody, List.count_append, List.count_replicate, List.count_eq_zero_of_not_mem hpre]
    simp
  simp only [newLexer] at hd
  have hdN : d = body.count (Token.char 91) - body.count Token.CLOSING_TAG_OPENING := by
    rw [hN, hM]
    omega
  refine ⟨by rw [hN, hM]; omega, by rw [hC, hdN], pre, ?_, hpre⟩
  rw [← hdN]
  exact hbody

theorem missing_closing_before_end_witness :
    [Token.char 91, Token.ID, Token.char 93, Token.TEXT,
        Token.MISSING_CLOSING].count Token.CLOSING_TAG_OPENING ≤
      [Token.char 91, Token.ID, Token.char 93, Token.TEXT,
        Token.MISSING_CLOSING].count (Token.char 91) ∧
    [Token.char 91, Token.ID, Token.char 93, Token.TEXT,
        Token.MISSING_CLOSING].count Token.MISSING_CLOSING =
      [Token.char 91, Token.ID, Token.char 93, Token.TEXT,
        Token.MISSING_CLOSING].count (Token.char 91)
      - [Token.char 91, Token.ID, Token.char 93, Token.TEXT,
        Token.MISSING_CLOSING].count Token.CLOSING_TAG_OPENING ∧
    ∃ pre, [Token.char 91, Token.ID, Token.char 93, Token.TEXT, Token.MISSING_CLOSING] =
      pre ++ List.replicate
        ([Token.char 91, Token.ID, Token.char 93, Token.TEXT,
            Token.MISSING_CLOSING].count (Token.char 91)
          - [Token.char 91, Token.ID, Token.char 93, Token.TEXT,
            Token.MISSING_CLOSING].count Token.CLOSING_TAG_OPENING)
        Token.MISSING_CLOSING ∧ Token.MISSING_CLOSING ∉ pre :=
  missing_closing_before_end [91, 98, 93, 120] ⟨[]⟩ ⟨[120]⟩ 6
    [⟨Token.char 91, [], 1⟩, ⟨Token.ID, [98], 1⟩, ⟨Token.char 93, [98], 1⟩,
     ⟨Token.TEXT, [120], 1⟩, ⟨Token.MISSING_CLOSING, [120], 0⟩, ⟨Token.eof, [120], 0⟩]
    ⟨[], INIT_STATE, 0⟩
    [Token.char 91, Token.ID, Token.char 93, Token.TEXT, Token.MISSING_CLOSING]
    (by decide) (by decide) (by decide) (by decide) (by decide)

/-- C8 (the code fails): on the input `[b ` (a tag name followed by a blank at
the end of the input) the first two calls return `[` and ID(`b`), and the third
call, in TagArgs mode on the single blank, fails: the white space loop reads
`l.str[0]` of an empty buffer. -/
theorem Lex_fails_on_trailing_blank :
    lexN 2 (newLexer [91, 98, 32]) ⟨[]⟩ =
      some ([⟨Token.char 91, [], 1⟩, ⟨Token.ID, [98], 1⟩],
            ⟨[32], TAG_ARGS_STATE, 1⟩, ⟨[98]⟩) ∧
    Lex ⟨[32], TAG_ARGS_STATE, 1⟩ ⟨[98]⟩ = none ∧
    lexN 3 (newLexer [91, 98, 32]) ⟨[]⟩ = none := by
  refine ⟨?_, ?_, ?_⟩ <;> decide

theorem lexN_stuck (v0 : yySymType) (n : Nat) :
    lexN n ⟨[32, 98, 93], TAG_START_STATE, 1⟩ v0 =
      some (List.replicate n ⟨Token.TEXT, v0.str, 1⟩,
            ⟨[32, 98, 93], TAG_START_STATE, 1⟩, v0) := by
  induction n with
  | zero => rfl
  | succ n ih =>
    have h1 : Lex ⟨[32, 98, 93], TAG_START_STATE, 1⟩ v0 =
        some (Token.TEXT, ⟨[32, 98, 93], TAG_START_STATE, 1⟩, v0) := by
      simp [Lex, tags, lowerStartsWith, lowerLit]
    exact lexN_cons h1 ih

/-- C9 (the code does not terminate): on the input `[ b]` the first call
returns `[` and every later call returns TEXT without consuming anything, the
lexer staying in TagStart mode on ` b]`; no number of calls reaches
end-of-input. -/
theorem Lex_never_ends_after_blank (v0 : yySymType) (n : Nat) :
    lexN (n + 1) (newLexer [91, 32, 98, 93]) v0 =
      some (⟨Token.char 91, v0.str, 1⟩ :: List.replicate n ⟨Token.TEXT, v0.str, 1⟩,
            ⟨[32, 98, 93], TAG_START_STATE, 1⟩, v0) ∧
    Token.eof ∉ (((⟨Token.char 91, v0.str, 1⟩ : Event) ::
      List.replicate n ⟨Token.TEXT, v0.str, 1⟩).map Event.tok) := by
  refine ⟨?_, by simp⟩
  have h1 : Lex (newLexer [91, 32, 98, 93]) v0 =
      some (Token.char 91, ⟨[32, 98, 93], TAG_START_STATE, 1⟩, v0) := by
    have hm : anyTagMatch [91, 32, 98, 93] = true := by decide
    simp [Lex, newLexer, hm, wrapInt]
  exact lexN_cons h1 (lexN_stuck v0 n)

/-! ## Depth accounting, buffer and payload frame -/

theorem depthDelta_count_all (t : Token) (pre : List Token) :
    (((t :: pre).count (Token.char 91) : Nat) : Int)
        - ((t :: pre).count Token.CLOSING_TAG_OPENING : Nat)
        - ((t :: pre).count Token.MISSING_CLOSING : Nat) =
      depthDelta t + (((pre.count (Token.char 91) : Nat) : Int)
        - (pre.count Token.CLOSING_TAG_OPENING : Nat)
        - (pre.count Token.MISSING_CLOSING : Nat)) := by
  by_cases hmc : t = Token.MISSING_CLOSING
  · subst hmc
    simp [depthDelta]
    omega
  · have e : (t :: pre).count Token.MISSING_CLOSING = pre.count Token.MISSING_CLOSING :=
      List.count_cons_of_ne (Ne.symm hmc) pre
    have hc := depthDelta_count t hmc pre
    rw [e]
    omega

theorem lexN_depth_count (n : Nat) : ∀ (l l2 : lexer) (v v2 : yySymType) (es : List Event),
    0 ≤ l.tagsOpened → l.tagsOpened + l.str.length ≤ maxInt →
    lexN n l v = some (es, l2, v2) →
    l2.tagsOpened = l.tagsOpened
      + ((((es.map Event.tok).count (Token.char 91) : Nat) : Int)
        - ((es.map Event.tok).count Token.CLOSING_TAG_OPENING : Nat)
        - ((es.map Event.tok).count Token.MISSING_CLOSING : Nat)) := by
  induction n with
  | zero =>
    intro l l2 v v2 es _ _ h
    cases h
    simp
  | succ n ih =>
    intro l l2 v v2 es h0 hb h
    obtain ⟨t, l1, v1, es1, hs, hr, rfl⟩ := lexN_succ_inv h
    obtain ⟨h1n, h1b, h1⟩ := Lex_inv h0 hb hs
    have h2 := ih l1 l2 v1 v2 es1 h1n (le_trans h1b hb) hr
    have h3 := depthDelta_count_all t (es1.map Event.tok)
    simp only [List.map_cons]
    omega

/-- C11 (as stated, refuted): from the state with `tagsOpened = maxInt`, in Init
mode on `[i]`, the call returns the literal `[` and leaves `tagsOpened = minInt`,
which is not `tagsOpened` before the call plus 1. -/
theorem increment_at_maxInt_is_not_plus_one :
    Lex ⟨[91, 105, 93], INIT_STATE, 9223372036854775807⟩ ⟨[]⟩ =
      some (Token.char 91, ⟨[105, 93], TAG_START_STATE, -9223372036854775808⟩, ⟨[]⟩) ∧
    (⟨[105, 93], TAG_START_STATE, -9223372036854775808⟩ : lexer).tagsOpened ≠
      (⟨[91, 105, 93], INIT_STATE, 9223372036854775807⟩ : lexer).tagsOpened + 1 := by
  constructor <;> decide

/-- C11 (amended): the change of `tagsOpened` in a call is determined by the
returned token.  For the literal `[` the new value is the old value plus 1 in
`int` arithmetic, which is the old value plus 1 whenever the old value is an
`int` other than `maxInt`; for CLOSING_TAG_OPENING and MISSING_CLOSING it is the
old value minus 1; for every other token it is unchanged.  Hence after any
number of calls on a fresh lexer (for an input of length at most `maxInt`, as
the length of every Go string is) `tagsOpened` is the number of `[` tokens
minus the number of CLOSING_TAG_OPENING tokens minus the number of
MISSING_CLOSING tokens. -/
theorem depth_follows_token (l l1 l2 : lexer) (v v1 v0 v2 : yySymType) (t : Token)
    (input : List Nat) (n : Nat) (es : List Event) :
    (Lex l v = some (t, l1, v1) →
      (t = Token.char 91 → l1.tagsOpened = wrapInt (l.tagsOpened + 1)) ∧
      (t = Token.char 91 → minInt ≤ l.tagsOpened → l.tagsOpened < maxInt →
        l1.tagsOpened = l.tagsOpened + 1) ∧
      (t = Token.CLOSING_TAG_OPENING ∨ t = Token.MISSING_CLOSING →
        l1.tagsOpened = l.tagsOpened - 1) ∧
      (t ≠ Token.char 91 → t ≠ Token.CLOSING_TAG_OPENING → t ≠ Token.MISSING_CLOSING →
        l1.tagsOpened = l.tagsOpened)) ∧
    ((input.length : Int) ≤ maxInt → lexN n (newLexer input) v0 = some (es, l2, v2) →
      l2.tagsOpened = (((es.map Event.tok).count (Token.char 91) : Nat) : Int)
        - ((es.map Event.tok).count Token.CLOSING_TAG_OPENING : Nat)
        - ((es.map Event.tok).count Token.MISSING_CLOSING : Nat)) := by
  constructor
  · intro h
    refine ⟨?_, ?_, ?_, ?_⟩
    · rintro rfl
      exact (Lex_bracket h).1
    · rintro rfl hlo hhi
      rw [(Lex_bracket h).1, wrapInt_succ hlo hhi]
    · rintro (rfl | rfl)
      · have hd := Lex_depth_other h (by simp)
        simp only [depthDelta] at hd
        omega
      · have hd := Lex_depth_other h (by simp)
        simp only [depthDelta] at hd
        omega
    · intro h1 h2 h3
      have hd := Lex_depth_other h h1
      have e3 : depthDelta t = 0 := by
        unfold depthDelta
        split <;> simp_all
      omega
  · intro hlen h
    have := lexN_depth_count n (newLexer input) l2 v0 v2 es (le_refl 0)
      (by simp only [newLexer]; omega) h
    simp only [newLexer] at this
    omega

theorem depth_follows_token_witness :
    ((Token.char 91 = Token.char 91 →
        (⟨[98, 93], TAG_START_STATE, 3⟩ : lexer).tagsOpened
          = wrapInt ((⟨[91, 98, 93], INIT_STATE, 2⟩ : lexer).tagsOpened + 1)) ∧
      (Token.char 91 = Token.char 91 →
        minInt ≤ (⟨[91, 98, 93], INIT_STATE, 2⟩ : lexer).tagsOpened →
        (⟨[91, 98, 93], INIT_STATE, 2⟩ : lexer).tagsOpened < maxInt →
        (⟨[98, 93], TAG_START_STATE, 3⟩ : lexer).tagsOpened
          = (⟨[91, 98, 93], INIT_STATE, 2⟩ : lexer).tagsOpened + 1) ∧
      (Token.char 91 = Token.CLOSING_TAG_OPENING ∨ Token.char 91 = Token.MISSING_CLOSING →
        (⟨[98, 93], TAG_START_STATE, 3⟩ : lexer).tagsOpened
          = (⟨[91, 98, 93], INIT_STATE, 2⟩ : lexer).tagsOpened - 1) ∧
      (Token.char 91 ≠ Token.char 91 → Token.char 91 ≠ Token.CLOSING_TAG_OPENING →
        Token.char 91 ≠ Token.MISSING_CLOSING →
        (⟨[98, 93], TAG_START_STATE, 3⟩ : lexer).tagsOpened
          = (⟨[91, 98, 93], INIT_STATE, 2⟩ : lexer).tagsOpened)) ∧
    ((⟨[], INIT_STATE, 0⟩ : lexer).tagsOpened =
      ((([(⟨Token.char 91, [], 1⟩ : Event), ⟨Token.ID, [98], 1⟩,
            ⟨Token.char 93, [98], 1⟩, ⟨Token.MISSING_CLOSING, [98], 0⟩].map
              Event.tok).count (Token.char 91) : Nat) : Int)
        - (([(⟨Token.char 91, [], 1⟩ : Event), ⟨Token.ID, [98], 1⟩,
            ⟨Token.char 93, [98], 1⟩, ⟨Token.MISSING_CLOSING, [98], 0⟩].map
              Event.tok).count Token.CLOSING_TAG_OPENING : Nat)
        - (([(⟨Token.char 91, [], 1⟩ : Event), ⟨Token.ID, [98], 1⟩,
            ⟨Token.char 93, [98], 1⟩, ⟨Token.MISSING_CLOSING, [98], 0⟩].map
              Event.tok).count Token.MISSING_CLOSING : Nat)) :=
  ⟨(depth_follows_token ⟨[91, 98, 93], INIT_STATE, 2⟩ ⟨[98, 93], TAG_START_STATE, 3⟩
      ⟨[], INIT_STATE, 0⟩ ⟨[7]⟩ ⟨[7]⟩ ⟨[]⟩ ⟨[98]⟩ (Token.char 91) [91, 98, 93] 4
      [⟨Token.char 91, [], 1⟩, ⟨Token.ID, [98], 1⟩, ⟨Token.char 93, [98], 1⟩,
       ⟨Token.MISSING_CLOSING, [98], 0⟩]).1
      (by decide),
   (depth_follows_token ⟨[91, 98, 93], INIT_STATE, 2⟩ ⟨[98, 93], TAG_START_STATE, 3⟩
      ⟨[], INIT_STATE, 0⟩ ⟨[7]⟩ ⟨[7]⟩ ⟨[]⟩ ⟨[98]⟩ (Token.char 91) [91, 98, 93] 4
      [⟨Token.char 91, [], 1⟩, ⟨Token.ID, [98], 1⟩, ⟨Token.char 93, [98], 1⟩,
       ⟨Token.MISSING_CLOSING, [98], 0⟩]).2
      (by decide) (by decide)⟩

/-- C13: a call that returns a token other than ID and TEXT leaves the payload
slot `lval.str` as it was. -/
theorem payload_written_only_for_ID_TEXT (l l1 : lexer) (v v1 : yySymType) (t : Token)
    (h : Lex l v = some (t, l1, v1)) (hid : t ≠ Token.ID) (htext : t ≠ Token.TEXT) :
    v1.str = v.str := by
  unfold Lex at h
  repeat' split at h
  all_goals (cases h <;> simp_all)

theorem payload_written_only_for_ID_TEXT_witness :
    (⟨[104, 105]⟩ : yySymType).str = (⟨[104, 105]⟩ : yySymType).str :=
  payload_written_only_for_ID_TEXT ⟨[91, 47, 98, 93], INIT_STATE, 1⟩
    ⟨[98, 93], TAG_START_STATE, 0⟩ ⟨[104, 105]⟩ ⟨[104, 105]⟩ Token.CLOSING_TAG_OPENING
    (by decide) (by decide) (by decide)

theorem skipSpace_split : ∀ (s : List Nat) (c1 : Nat) (rest1 : List Nat),
    skipSpace s = some (c1, rest1) →
    ∃ w, s = w ++ c1 :: rest1 ∧ (∀ b ∈ w, isSpace b = true) ∧ isSpace c1 = false := by
  intro s
  induction s with
  | nil => intro c1 rest1 h; cases h
  | cons c rest ih =>
    intro c1 rest1 h
    simp only [skipSpace] at h
    split at h
    · obtain ⟨w, hw, hsp, hc⟩ := ih c1 rest1 h
      refine ⟨c :: w, by rw [hw]; rfl, ?_, hc⟩
      intro b hb
      rcases List.mem_cons.mp hb with rfl | hb
      · assumption
      · exact hsp b hb
    · cases h
      exact ⟨[], rfl, by simp, by simpa using ‹¬isSpace c = true›⟩

theorem skipSpace_append {w : List Nat} (hw : ∀ b ∈ w, isSpace b = true) {c1 : Nat}
    (hc : isSpace c1 = false) (rest1 : List Nat) :
    skipSpace (w ++ c1 :: rest1) = some (c1, rest1) := by
  induction w with
  | nil => simp [skipSpace, hc]
  | cons b w ih =>
    have hb := hw b (List.mem_cons_self b w)
    have ih2 := ih (fun x hx => hw x (List.mem_cons_of_mem b hx))
    simp [skipSpace, hb, ih2]

theorem skipSpace_suffix (s : List Nat) (c1 : Nat) (rest1 : List Nat)
    (h : skipSpace s = some (c1, rest1)) : c1 :: rest1 <:+ s := by
  obtain ⟨w, hw, -, -⟩ := skipSpace_split s c1 rest1 h
  exact ⟨w, hw.symm⟩

theorem Lex_suffix {l l1 : lexer} {v v1 : yySymType} {t : Token}
    (h : Lex l v = some (t, l1, v1)) : l1.str <:+ l.str := by
  unfold Lex at h
  repeat' split at h
  all_goals
    (try have hk := skipSpace_suffix _ _ _ ‹skipSpace _ = some _›
     cases h <;> (try simp only [*] at *) <;> first
       | exact List.suffix_rfl
       | exact List.drop_suffix _ _
       | exact hk
       | exact (List.suffix_cons _ _).trans hk
       | exact (List.drop_suffix _ _).trans hk
       | exact List.suffix_cons _ _
       | exact (List.suffix_cons _ _).trans (List.suffix_cons _ _))

/-- C12: in every call that returns, the remaining buffer after the call is a
suffix of the remaining buffer before it: the old buffer is the consumed bytes
followed by the new buffer, and the length does not grow. -/
theorem remaining_only_shrinks (l l1 : lexer) (v v1 : yySymType) (t : Token)
    (h : Lex l v = some (t, l1, v1)) :
    (∃ consumed, l.str = consumed ++ l1.str) ∧ l1.str.length ≤ l.str.length := by
  have hs := Lex_suffix h
  refine ⟨?_, hs.length_le⟩
  obtain ⟨consumed, hc⟩ := hs
  exact ⟨consumed, hc.symm⟩

theorem remaining_only_shrinks_witness :
    (∃ consumed, (⟨[32, 120, 93], TAG_ARGS_STATE, 1⟩ : lexer).str
        = consumed ++ (⟨[93], TAG_ARGS_STATE, 1⟩ : lexer).str) ∧
    (⟨[93], TAG_ARGS_STATE, 1⟩ : lexer).str.length
      ≤ (⟨[32, 120, 93], TAG_ARGS_STATE, 1⟩ : lexer).str.length :=
  remaining_only_shrinks ⟨[32, 120, 93], TAG_ARGS_STATE, 1⟩ ⟨[93], TAG_ARGS_STATE, 1⟩
    ⟨[98]⟩ ⟨[120]⟩ Token.ID (by decide)

/-! ## The argument branches -/

/-- C14 (as stated, refuted): in ArgValue mode on `a`, line feed, `b`, `]` the
value `a\nb` has no space and no `]` and starts with no white space and no
quote, yet the call returns TEXT without consuming anything, without writing
the payload slot and without leaving ArgValue mode. -/
theorem argument_value_with_line_feed :
    Lex ⟨[97, 10, 98] ++ 93 :: [], ARG_VALUE_STATE, 1⟩ ⟨[117]⟩ =
      some (Token.TEXT, ⟨[97, 10, 98, 93], ARG_VALUE_STATE, 1⟩, ⟨[117]⟩) ∧
    Lex ⟨[97, 10, 98] ++ 93 :: [], ARG_VALUE_STATE, 1⟩ ⟨[117]⟩ ≠
      some (Token.TEXT, ⟨93 :: [], TAG_ARGS_STATE, 1⟩, ⟨[97, 10, 98]⟩) := by
  constructor <;> decide

/-- C14 (amended): in ArgValue mode on `a` `d` `r`, where `a` is a non-empty
run of bytes with no space, no `]` and no line feed, whose first byte is
neither white space nor a quote, and `d` is a space or `]`, the call returns
TEXT with payload exactly `a`, leaves `d` followed by `r` as remaining input,
switches to TagArgs and leaves `tagsOpened` unchanged. -/
theorem unquoted_argument_value (a r : List Nat) (d : Nat) (k : Int) (v : yySymType)
    (hne : a ≠ []) (ha : ∀ b ∈ a, b ≠ 32 ∧ b ≠ 93 ∧ b ≠ 10)
    (hq : ∀ c ∈ a.head?, isSpace c = false ∧ c ≠ 34 ∧ c ≠ 39)
    (hd : d = 32 ∨ d = 93) :
    Lex ⟨a ++ d :: r, ARG_VALUE_STATE, k⟩ v =
      some (Token.TEXT, ⟨d :: r, TAG_ARGS_STATE, k⟩, ⟨a⟩) :=
  Lex_argValue hne ha hq hd r k v

theorem unquoted_argument_value_witness :
    Lex ⟨[104, 9, 120] ++ 32 :: [97, 93], ARG_VALUE_STATE, 2⟩ ⟨[117]⟩ =
      some (Token.TEXT, ⟨32 :: [97, 93], TAG_ARGS_STATE, 2⟩, ⟨[104, 9, 120]⟩) :=
  unquoted_argument_value [104, 9, 120] [97, 93] 32 2 ⟨[117]⟩ (by decide) (by decide)
    (by decide) (by decide)

theorem lexN_quote_repeat (q : Nat) (hq : q = 34 ∨ q = 39) (r : List Nat) (k : Int)
    (v : yySymType) (n : Nat) :
    lexN n ⟨q :: r, ARG_VALUE_STATE, k⟩ v =
      some (List.replicate n ⟨Token.eof, v.str, k⟩, ⟨q :: r, ARG_VALUE_STATE, k⟩, v) := by
  induction n with
  | zero => rfl
  | succ n ih =>
    have h1 : Lex ⟨q :: r, ARG_VALUE_STATE, k⟩ v =
        some (Token.eof, ⟨q :: r, ARG_VALUE_STATE, k⟩, v) := by
      rcases hq with rfl | rfl <;> simp [Lex, skipSpace, isSpace]
    exact lexN_cons h1 ih

/-- C15: in ArgValue mode, when the remaining input is a run `w` of white space
bytes followed by a quote `q`, the call returns end-of-input whatever
`tagsOpened` is, consumes only `w`, and leaves the mode, `tagsOpened` and the
payload slot unchanged; every later call returns end-of-input again with the
same state. -/
theorem quoted_value_ends_stream (w r : List Nat) (q : Nat) (k : Int) (v : yySymType)
    (n : Nat) (hw : ∀ b ∈ w, isSpace b = true) (hq : q = 34 ∨ q = 39) :
    Lex ⟨w ++ q :: r, ARG_VALUE_STATE, k⟩ v =
      some (Token.eof, ⟨q :: r, ARG_VALUE_STATE, k⟩, v) ∧
    lexN n ⟨q :: r, ARG_VALUE_STATE, k⟩ v =
      some (List.replicate n ⟨Token.eof, v.str, k⟩, ⟨q :: r, ARG_VALUE_STATE, k⟩, v) := by
  refine ⟨?_, lexN_quote_repeat q hq r k v n⟩
  have hqs : isSpace q = false := by rcases hq with rfl | rfl <;> decide
  have hsk := skipSpace_append hw hqs r
  cases hwr : w ++ q :: r with
  | nil => simp at hwr
  | cons c rest =>
    rw [hwr] at hsk
    simp only [Lex, hsk]
    simp [hq]

theorem quoted_value_ends_stream_witness :
    Lex ⟨[32, 9] ++ 39 :: [120, 39, 93], ARG_VALUE_STATE, 2⟩ ⟨[98]⟩ =
      some (Token.eof, ⟨39 :: [120, 39, 93], ARG_VALUE_STATE, 2⟩, ⟨[98]⟩) ∧
    lexN 3 ⟨39 :: [120, 39, 93], ARG_VALUE_STATE, 2⟩ ⟨[98]⟩ =
      some (List.replicate 3 ⟨Token.eof, (⟨[98]⟩ : yySymType).str, 2⟩,
            ⟨39 :: [120, 39, 93], ARG_VALUE_STATE, 2⟩, ⟨[98]⟩) :=
  quoted_value_ends_stream [32, 9] [120, 39, 93] 39 2 ⟨[98]⟩ 3 (by decide) (by decide)

theorem isIdByte_facts {c : Nat} (h : isIdByte c = true) :
    isSpace c = false ∧ c ≠ 93 ∧ c ≠ 61 := by
  simp only [isIdByte, Bool.or_eq_true, Bool.and_eq_true, decide_eq_true_eq, beq_iff_eq] at h
  refine ⟨?_, by omega, by omega⟩
  simp only [isSpace, Bool.or_eq_false_iff, beq_eq_false_iff_ne, ne_eq]
  omega

theorem idRun_append {p : List Nat} (hp : ∀ b ∈ p, isIdByte b = true) {rest : List Nat}
    (hrest : ∀ b ∈ rest.head?, isIdByte b = false) : idRun (p ++ rest) = p := by
  induction p with
  | nil =>
    cases rest with
    | nil => rfl
    | cons b rest2 => simp [idRun, hrest b (by simp)]
  | cons b p ih =>
    have hb := hp b (List.mem_cons_self b p)
    have ih2 := ih (fun x hx => hp x (List.mem_cons_of_mem b hx))
    simp [idRun, hb, ih2]

/-- C19: in TagArgs mode, when the remaining input is a run `w` of white space
bytes followed by a non-empty run `p` of identifier bytes that is not continued
by another identifier byte, the call returns ID with payload `p`, consumes
exactly `w` and `p`, and leaves the mode and `tagsOpened` unchanged. -/
theorem argument_identifier (w p rest : List Nat) (k : Int) (v : yySymType)
    (hw : ∀ b ∈ w, isSpace b = true) (hne : p ≠ []) (hp : ∀ b ∈ p, isIdByte b = true)
    (hrest : ∀ b ∈ rest.head?, isIdByte b = false) :
    Lex ⟨w ++ (p ++ rest), TAG_ARGS_STATE, k⟩ v =
      some (Token.ID, ⟨rest, TAG_ARGS_STATE, k⟩, ⟨p⟩) := by
  cases p with
  | nil => exact absurd rfl hne
  | cons c p2 =>
    have hc := isIdByte_facts (hp c (List.mem_cons_self c p2))
    have hsk := skipSpace_append hw hc.1 (p2 ++ rest)
    have hid := idRun_append hp hrest
    rw [List.cons_append] at hid ⊢
    cases hwr : w ++ c :: (p2 ++ rest) with
    | nil => simp at hwr
    | cons c0 rest0 =>
      rw [hwr] at hsk
      simp only [Lex, hsk]
      simp only [if_neg hc.2.1, if_neg hc.2.2, hid]
      rw [← List.cons_append, List.drop_left]

theorem argument_identifier_witness :
    Lex ⟨[32, 32] ++ ([119, 105, 100, 116, 104, 95, 49] ++ [61, 52, 93]),
          TAG_ARGS_STATE, 1⟩ ⟨[105, 109, 103]⟩ =
      some (Token.ID, ⟨[61, 52, 93], TAG_ARGS_STATE, 1⟩,
            ⟨[119, 105, 100, 116, 104, 95, 49]⟩) :=
  argument_identifier [32, 32] [119, 105, 100, 116, 104, 95, 49] [61, 52, 93] 1
    ⟨[105, 109, 103]⟩ (by decide) (by decide) (by decide) (by decide)

/-! ## The text-run rule and tag-free input -/

theorem runLength_le (r : List Nat) : runLength r ≤ r.length := by
  induction r with
  | nil => simp [runLength]
  | cons b r ih =>
    simp only [runLength]
    split
    · exact Nat.zero_le _
    · simp only [List.length_cons]
      omega

theorem runLength_before : ∀ (r : List Nat) (i b : Nat), i < runLength r → r[i]? = some b →
    b ≠ 91 ∧ b ≠ 10 := by
  intro r
  induction r with
  | nil => intro i b hi; simp [runLength] at hi
  | cons a r ih =>
    intro i b hi hb
    simp only [runLength] at hi
    split at hi
    · omega
    · cases i with
      | zero =>
        simp only [List.getElem?_cons_zero, Option.some.injEq] at hb
        subst hb
        constructor <;> (intro h; simp_all)
      | succ i =>
        rw [List.getElem?_cons_succ] at hb
        exact ih i b (by omega) hb

theorem runLength_stop : ∀ (r : List Nat), runLength r < r.length →
    r[runLength r]? = some 91 ∨ r[runLength r]? = some 10 := by
  intro r
  induction r with
  | nil => intro h; simp at h
  | cons a r ih =>
    intro h
    simp only [runLength] at h ⊢
    split
    · rename_i hstop
      rcases hstop with rfl | rfl <;> simp
    · rename_i hstop
      rw [if_neg hstop] at h
      simp only [List.length_cons] at h
      rw [List.getElem?_cons_succ]
      exact ih (by omega)

theorem Lex_text_run (c : Nat) (rest : List Nat) (d : Int) (v : yySymType) (hc : c ≠ 10)
    (hm : c ≠ 91 ∨ anyTagMatch (c :: rest) = false) :
    Lex ⟨c :: rest, INIT_STATE, d⟩ v =
      some (Token.TEXT, ⟨(c :: rest).drop (1 + runLength rest), INIT_STATE, d⟩,
            ⟨(c :: rest).take (1 + runLength rest)⟩) := by
  have hm2 : ¬ (c = 91 ∧ anyTagMatch (c :: rest) = true) := by
    rintro ⟨h1, h2⟩
    rcases hm with h | h
    · exact h h1
    · rw [h] at h2; exact Bool.noConfusion h2
  simp only [Lex]
  rw [if_neg hc, if_neg hm2]

/-- C16: in Init mode on a non-empty remaining input `s` that does not start
with a line feed and either does not start with `[` or is matched by no tag
pattern, the call returns TEXT with payload `s[0:k]`, where `k >= 1` is the
least index at which `s` has a `[` or a line feed, or the length of `s` when
there is none; the remaining input becomes `s[k:]` and the mode and
`tagsOpened` are unchanged. -/
theorem text_run_rule (c : Nat) (rest : List Nat) (d : Int) (v : yySymType) (hc : c ≠ 10)
    (hm : c ≠ 91 ∨ ∀ tag ∈ tags, tagRegexpMatch tag (c :: rest) = false) :
    ∃ k, 1 ≤ k ∧ k ≤ (c :: rest).length ∧
      (∀ i b, 1 ≤ i → i < k → (c :: rest)[i]? = some b → b ≠ 91 ∧ b ≠ 10) ∧
      (k < (c :: rest).length → (c :: rest)[k]? = some 91 ∨ (c :: rest)[k]? = some 10) ∧
      Lex ⟨c :: rest, INIT_STATE, d⟩ v =
        some (Token.TEXT, ⟨(c :: rest).drop k, INIT_STATE, d⟩, ⟨(c :: rest).take k⟩) := by
  have hm2 : c ≠ 91 ∨ anyTagMatch (c :: rest) = false := by
    rcases hm with h | h
    · exact Or.inl h
    · exact Or.inr (anyTagMatch_false h)
  have hle := runLength_le rest
  refine ⟨1 + runLength rest, by omega, by simp only [List.length_cons]; omega, ?_, ?_,
    Lex_text_run c rest d v hc hm2⟩
  · intro i b h1 h2 hb
    obtain ⟨j, rfl⟩ : ∃ j, i = j + 1 := ⟨i - 1, by omega⟩
    rw [List.getElem?_cons_succ] at hb
    exact runLength_before rest j b (by omega) hb
  · intro h
    simp only [List.length_cons] at h
    rw [Nat.add_comm 1, List.getElem?_cons_succ]
    exact runLength_stop rest (by omega)

theorem text_run_rule_witness :
    ∃ k, 1 ≤ k ∧ k ≤ (91 :: [102, 93, 32, 10, 120]).length ∧
      (∀ i b, 1 ≤ i → i < k → (91 :: [102, 93, 32, 10, 120])[i]? = some b → b ≠ 91 ∧ b ≠ 10) ∧
      (k < (91 :: [102, 93, 32, 10, 120]).length →
        (91 :: [102, 93, 32, 10, 120])[k]? = some 91 ∨
        (91 :: [102, 93, 32, 10, 120])[k]? = some 10) ∧
      Lex ⟨91 :: [102, 93, 32, 10, 120], INIT_STATE, 2⟩ ⟨[98]⟩ =
        some (Token.TEXT, ⟨(91 :: [102, 93, 32, 10, 120]).drop k, INIT_STATE, 2⟩,
              ⟨(91 :: [102, 93, 32, 10, 120]).take k⟩) :=
  text_run_rule 91 [102, 93, 32, 10, 120] 2 ⟨[98]⟩ (by decide) (Or.inr (by decide))

theorem tagRegexpMatch_head {tag s : List Nat} (h : tagRegexpMatch tag s = true) :
    ∃ r, s = 91 :: r := by
  unfold tagRegexpMatch at h
  split at h
  · exact ⟨_, rfl⟩
  · exact absurd h (by simp)

theorem lex_tag_free (m : Nat) : ∀ (s : List Nat) (v : yySymType), s.length ≤ m →
    (∀ p q, s = p ++ q → anyTagMatch q = false) →
    ∃ n es v2, n ≤ s.length ∧
      lexN (n + 1) ⟨s, INIT_STATE, 0⟩ v =
        some (es ++ [⟨Token.eof, v2.str, 0⟩], ⟨[], INIT_STATE, 0⟩, v2) ∧
      (∀ e ∈ es, (e.tok = Token.TEXT ∧ e.val ≠ []) ∨ e.tok = Token.NEWLINE) ∧
      (es.map fun e => if e.tok = Token.NEWLINE then [10] else e.val).flatten = s := by
  induction m with
  | zero =>
    intro s v hlen _
    have hs : s = [] := List.length_eq_zero.mp (by omega)
    subst hs
    exact ⟨0, [], v, le_refl _, by simp [lexN, Lex], by simp, by simp⟩
  | succ m ih =>
    intro s v hlen hfree
    cases s with
    | nil => exact ⟨0, [], v, le_refl _, by simp [lexN, Lex], by simp, by simp⟩
    | cons c rest =>
      simp only [List.length_cons] at hlen
      by_cases hc : c = 10
      · subst hc
        have hstep : Lex ⟨10 :: rest, INIT_STATE, 0⟩ v =
            some (Token.NEWLINE, ⟨rest, INIT_STATE, 0⟩, v) := by
          simp [Lex]
        obtain ⟨n, es, v2, hn, hrun, hes, hcat⟩ := ih rest v (by omega)
          (fun p q hpq => hfree (10 :: p) q (by rw [hpq]; rfl))
        refine ⟨n + 1, ⟨Token.NEWLINE, v.str, 0⟩ :: es, v2,
          by simp only [List.length_cons]; omega, ?_, ?_, ?_⟩
        · exact lexN_cons hstep hrun
        · intro e he
          rcases List.mem_cons.mp he with rfl | he
          · exact Or.inr rfl
          · exact hes e he
        · simp only [List.map_cons, List.flatten_cons, if_pos, hcat]
          rfl
      · have hm : c ≠ 91 ∨ anyTagMatch (c :: rest) = false :=
          Or.inr (hfree [] (c :: rest) rfl)
        have hstep := Lex_text_run c rest 0 v hc hm
        have hdrop : (c :: rest).drop (1 + runLength rest) = rest.drop (runLength rest) := by
          rw [Nat.add_comm, List.drop_succ_cons]
        have htake : (c :: rest).take (1 + runLength rest)
            = c :: rest.take (runLength rest) := by
          rw [Nat.add_comm, List.take_succ_cons]
        rw [hdrop, htake] at hstep
        have hsplit : c :: rest
            = (c :: rest.take (runLength rest)) ++ rest.drop (runLength rest) := by
          rw [List.cons_append, List.take_append_drop]
        have hlen2 : (rest.drop (runLength rest)).length ≤ rest.length := by
          rw [List.length_drop]
          omega
        obtain ⟨n, es, v2, hn, hrun, hes, hcat⟩ :=
          ih (rest.drop (runLength rest)) ⟨c :: rest.take (runLength rest)⟩ (by omega)
            (fun p q hpq => hfree ((c :: rest.take (runLength rest)) ++ p) q
              (by rw [List.append_assoc, ← hpq]; exact hsplit))
        refine ⟨n + 1, ⟨Token.TEXT, c :: rest.take (runLength rest), 0⟩ :: es, v2,
          by simp only [List.length_cons]; omega, ?_, ?_, ?_⟩
        · exact lexN_cons hstep hrun
        · intro e he
          rcases List.mem_cons.mp he with rfl | he
          · exact Or.inl ⟨rfl, by simp⟩
          · exact hes e he
        · simp only [List.map_cons, List.flatten_cons, hcat]
          simp

/-- C17: for every input without `[`, and more generally every input none of
whose suffixes is matched by a tag pattern, the calls on a fresh lexer return
only TEXT and NEWLINE tokens and then end-of-input, after at most
`len(input) + 1` calls; every TEXT payload is non-empty, and the TEXT payloads
with one line feed for each NEWLINE, concatenated in order, are the input. -/
theorem tag_free_lossless (input : List Nat) (v0 : yySymType)
    (h : 91 ∉ input ∨
      ∀ p q, input = p ++ q → ∀ tag ∈ tags, tagRegexpMatch tag q = false) :
    ∃ n es v2, n ≤ input.length ∧
      lexN (n + 1) (newLexer input) v0 =
        some (es ++ [⟨Token.eof, v2.str, 0⟩], ⟨[], INIT_STATE, 0⟩, v2) ∧
      (∀ e ∈ es, (e.tok = Token.TEXT ∧ e.val ≠ []) ∨ e.tok = Token.NEWLINE) ∧
      (es.map fun e => if e.tok = Token.NEWLINE then [10] else e.val).flatten = input := by
  apply lex_tag_free input.length input v0 (le_refl _)
  intro p q hpq
  apply anyTagMatch_false
  intro tag htag
  rcases h with h | h
  · by_contra hne
    have ht : tagRegexpMatch tag q = true := by simpa using hne
    obtain ⟨r, rfl⟩ := tagRegexpMatch_head ht
    exact h (by rw [hpq]; simp)
  · exact h p q hpq tag htag

theorem tag_free_lossless_witness :
    ∃ n es v2, n ≤ [104, 105, 10, 91, 120, 93].length ∧
      lexN (n + 1) (newLexer [104, 105, 10, 91, 120, 93]) ⟨[]⟩ =
        some (es ++ [⟨Token.eof, v2.str, 0⟩], ⟨[], INIT_STATE, 0⟩, v2) ∧
      (∀ e ∈ es, (e.tok = Token.TEXT ∧ e.val ≠ []) ∨ e.tok = Token.NEWLINE) ∧
      (es.map fun e => if e.tok = Token.NEWLINE then [10] else e.val).flatten
        = [104, 105, 10, 91, 120, 93] :=
  tag_free_lossless [104, 105, 10, 91, 120, 93] ⟨[]⟩ (Or.inr (by
    intro p q hpq tag htag
    have hq : q ∈ [104, 105, 10, 91, 120, 93].tails := by
      rw [List.mem_tails]
      exact ⟨p, hpq.symm⟩
    have hall : ∀ q2 ∈ [104, 105, 10, 91, 120, 93].tails, ∀ tag2 ∈ tags,
        tagRegexpMatch tag2 q2 = false := by decide
    exact hall q hq tag htag))

/-! ## The tag patterns -/

/-- C18 (the code fails): the pattern of tag `b` matches the input `[ b]`, the
call in Init mode returns `[` and switches to TagStart on ` b]`, and the call
that follows, made in TagStart mode, returns TEXT, not ID: it names no tag,
consumes nothing and stays in TagStart mode. -/
theorem tag_start_after_blank_names_nothing :
    tagRegexpMatch [98] [91, 32, 98, 93] = true ∧
    Lex ⟨[91, 32, 98, 93], INIT_STATE, 0⟩ ⟨[]⟩ =
      some (Token.char 91, ⟨[32, 98, 93], TAG_START_STATE, 1⟩, ⟨[]⟩) ∧
    Lex ⟨[32, 98, 93], TAG_START_STATE, 1⟩ ⟨[]⟩ =
      some (Token.TEXT, ⟨[32, 98, 93], TAG_START_STATE, 1⟩, ⟨[]⟩) := by
  refine ⟨?_, ?_, ?_⟩ <;> decide

theorem foldLit_some {c : Nat} {s r : List Nat} (h : foldLit c s = some r) :
    ∃ b rest, s = b :: rest ∧
      (((b = c ∨ b + 32 = c) ∧ r = rest) ∨ (c = 115 ∧ b = 197 ∧ rest = 191 :: r) ∨
        (c = 107 ∧ b = 226 ∧ rest = 132 :: 170 :: r)) := by
  unfold foldLit at h
  split at h
  · cases h
  · rename_i b rest
    refine ⟨b, rest, rfl, ?_⟩
    split at h
    · cases h
      exact Or.inl ⟨by assumption, rfl⟩
    · split at h
      · split at h
        · cases h
          exact Or.inr (Or.inl ⟨by assumption, rfl, rfl⟩)
        · cases h
      · split at h
        · split at h
          · cases h
            exact Or.inr (Or.inr ⟨by assumption, rfl, rfl⟩)
          · cases h
        · cases h

/-- A letter of a tag pattern is matched by one letter only: two lower-case
letters that both match at the head of the same input are equal, and so are
the remainders. -/
theorem foldLit_unique {c1 c2 : Nat} {s r1 r2 : List Nat}
    (h1 : foldLit c1 s = some r1) (h2 : foldLit c2 s = some r2)
    (hl1 : 97 ≤ c1 ∧ c1 ≤ 122) (hl2 : 97 ≤ c2 ∧ c2 ≤ 122) : c1 = c2 ∧ r1 = r2 := by
  obtain ⟨b, rest, hs, hb⟩ := foldLit_some h1
  obtain ⟨b2, rest2, hs2, hb2⟩ := foldLit_some h2
  rw [hs] at hs2
  cases hs2
  rcases hb with ⟨hb, rfl⟩ | ⟨rfl, rfl, rfl⟩ | ⟨rfl, rfl, rfl⟩ <;>
    rcases hb2 with ⟨hb2, hr⟩ | ⟨hc, hb2, hr⟩ | ⟨hc, hb2, hr⟩ <;>
    first
      | (constructor
         · omega
         · simp_all)
      | (exfalso; omega)

theorem foldLit_delim {c d : Nat} (t : List Nat) (hl : 97 ≤ c ∧ c ≤ 122)
    (hd : isTagDelim d = true) : foldLit c (d :: t) = none := by
  rcases isTagDelim_cases hd with rfl | rfl | rfl | rfl <;>
    (by_contra hne
     obtain ⟨r, hr⟩ := Option.ne_none_iff_exists'.mp hne
     obtain ⟨b, rest, hs, hb⟩ := foldLit_some hr
     cases hs
     omega)

theorem foldLits_exclusive : ∀ (T1 T2 core : List Nat) (d1 d2 : Nat) (t1 t2 : List Nat),
    (∀ c ∈ T1, 97 ≤ c ∧ c ≤ 122) → (∀ c ∈ T2, 97 ≤ c ∧ c ≤ 122) →
    foldLits T1 core = some (d1 :: t1) → isTagDelim d1 = true →
    foldLits T2 core = some (d2 :: t2) → isTagDelim d2 = true → T1 = T2 := by
  intro T1
  induction T1 with
  | nil =>
    intro T2 core d1 d2 t1 t2 _ hl2 h1 hd1 h2 _
    simp only [foldLits, Option.some.injEq] at h1
    subst h1
    cases T2 with
    | nil => rfl
    | cons c2 cs2 =>
      simp only [foldLits, foldLit_delim t1 (hl2 c2 (List.mem_cons_self _ _)) hd1] at h2
      cases h2
  | cons c1 cs1 ih =>
    intro T2 core d1 d2 t1 t2 hl1 hl2 h1 hd1 h2 hd2
    cases T2 with
    | nil =>
      simp only [foldLits, Option.some.injEq] at h2
      subst h2
      simp only [foldLits, foldLit_delim t2 (hl1 c1 (List.mem_cons_self _ _)) hd2] at h1
      cases h1
    | cons c2 cs2 =>
      simp only [foldLits] at h1 h2
      split at h1
      · rename_i r1 hr1
        split at h2
        · rename_i r2 hr2
          obtain ⟨rfl, rfl⟩ := foldLit_unique hr1 hr2 (hl1 c1 (List.mem_cons_self _ _))
            (hl2 c2 (List.mem_cons_self _ _))
          rw [ih cs2 r1 d1 d2 t1 t2 (fun c hc => hl1 c (List.mem_cons_of_mem _ hc))
            (fun c hc => hl2 c (List.mem_cons_of_mem _ hc)) h1 hd1 h2 hd2]
        · cases h2
      · cases h1

theorem tagRegexpMatch_core (s : List Nat) :
    ∃ core, ∀ T, tagRegexpMatch T s = true →
      ∃ d t, foldLits T core = some (d :: t) ∧ isTagDelim d = true := by
  cases s with
  | nil => exact ⟨[], fun T h => absurd h (by simp [tagRegexpMatch])⟩
  | cons a r =>
    refine ⟨skipBlanks (match r with
      | 47 :: r2 => r2
      | _ => r), ?_⟩
    intro T h
    obtain ⟨r0, hr0⟩ := tagRegexpMatch_head h
    cases hr0
    simp only [tagRegexpMatch] at h
    split at h
    · rename_i d t hf
      exact ⟨d, t, hf, h⟩
    · exact absurd h (by simp)

theorem tags_lower : ∀ T ∈ tags, ∀ c ∈ T, 97 ≤ c ∧ c ≤ 122 := by
  decide

/-- C20: at most one of the eight tag patterns matches any input, although `u`
and `i` begin other tag names; and the test made in Init mode (does some tag
pattern match) gives the same answer for every order of the registry. -/
theorem tag_patterns_exclusive (s T1 T2 : List Nat) (ts : List (List Nat))
    (h1 : T1 ∈ tags) (h2 : T2 ∈ tags)
    (hm1 : tagRegexpMatch T1 s = true) (hm2 : tagRegexpMatch T2 s = true)
    (hp : ts.Perm tags) :
    T1 = T2 ∧ ts.any (fun tag => tagRegexpMatch tag s) = anyTagMatch s := by
  constructor
  · obtain ⟨core, hcore⟩ := tagRegexpMatch_core s
    obtain ⟨d1, t1, hf1, hd1⟩ := hcore T1 hm1
    obtain ⟨d2, t2, hf2, hd2⟩ := hcore T2 hm2
    exact foldLits_exclusive T1 T2 core d1 d2 t1 t2 (tags_lower T1 h1) (tags_lower T2 h2)
      hf1 hd1 hf2 hd2
  · rw [Bool.eq_iff_iff]
    simp only [anyTagMatch, List.any_eq_true]
    constructor
    · rintro ⟨x, hx, hxm⟩
      exact ⟨x, hp.mem_iff.mp hx, hxm⟩
    · rintro ⟨x, hx, hxm⟩
      exact ⟨x, hp.mem_iff.mpr hx, hxm⟩

theorem tag_patterns_exclusive_witness :
    [117] = [117] ∧
    (tags.reverse).any (fun tag => tagRegexpMatch tag [91, 47, 32, 85, 61, 114, 108, 93])
      = anyTagMatch [91, 47, 32, 85, 61, 114, 108, 93] :=
  tag_patterns_exclusive [91, 47, 32, 85, 61, 114, 108, 93] [117] [117] tags.reverse
    (by decide) (by decide) (by decide) (by decide) (List.reverse_perm tags)

end bbcode

